import Mathlib

/-!
# Verification of the nearcore chain core (`chain.rs`)

A shallow embedding, in Lean 4, of the parts of `src/chain/chain/src/chain.rs`
needed to settle the frozen claims: the orphan block pool (`OrphanBlockPool`),
the chunk-application mode partition (`apply_chunks_preprocessing`), the block
merkle proof machinery (`get_block_proof`, `combine_maybe_hashes`), the gas and
balance split of `process_split_state`, the state-sync header verification
(`set_state_header`), the canonical garbage-collection loop of `clear_data`,
the head update rule (`update_head`), and the known-block checks
(`check_known`, `check_header_known`).

Hashes, block hashes and shard identifiers are modelled as natural numbers.
Rust `HashMap`s are modelled as association lists (all the operations the
source performs on them are order-independent or explicitly sorted, so the
association-list model is faithful), `HashSet`s as lists used only through
membership.
-/

/-! ## Constants (from the top of `chain.rs`) -/

/-- `MAX_ORPHAN_SIZE`: maximal number of orphans held in `OrphanBlockPool`. -/
def MAX_ORPHAN_SIZE : Nat := 1024

/-- `MAX_ORPHAN_AGE_SECS`: age (in seconds) beyond which an orphan is evicted. -/
def MAX_ORPHAN_AGE_SECS : Nat := 300

/-! ## Association-list helpers (model of `HashMap` / `HashSet`) -/

/-- `HashMap::get`: the value at the first entry with key `k`. -/
def alGet : List (Nat × α) → Nat → Option α
  | [], _ => none
  | e :: t, k => if e.1 = k then some e.2 else alGet t k

/-- `HashMap::remove` (just the removal of the entry): drop every entry with
key `k`. -/
def alErase : List (Nat × α) → Nat → List (Nat × α)
  | [], _ => []
  | e :: t, k => if e.1 = k then alErase t k else e :: alErase t k

/-- `HashMap::insert`: replaces the value at an existing key. -/
def alInsert (m : List (Nat × α)) (k : Nat) (v : α) : List (Nat × α) :=
  (k, v) :: alErase m k

/-- `map.entry(k).or_default().push(v)` on a `HashMap<_, Vec<_>>`. -/
def alPush (m : List (Nat × List Nat)) (k : Nat) (v : Nat) : List (Nat × List Nat) :=
  match alGet m k with
  | some xs => alInsert m k (xs ++ [v])
  | none => alInsert m k [v]

/-! ## `ApplyChunksMode` and `should_apply_transactions` (claim C2)

`apply_chunks_preprocessing` decides, per shard, whether to apply the shard's
transactions, from the mode and the two predicates
`cares_about_shard_this_epoch` / `cares_about_shard_next_epoch`
(`chain.rs` lines 3606-3618). -/

/-- The three modes in which `apply_chunks` can run. -/
inductive ApplyChunksMode
  | IsCaughtUp
  | CatchingUp
  | NotCaughtUp
deriving DecidableEq

/-- The `should_apply_transactions` match of `apply_chunks_preprocessing`. -/
def should_apply_transactions (mode : ApplyChunksMode)
    (cares_about_shard_this_epoch cares_about_shard_next_epoch : Bool) : Bool :=
  match mode with
  | ApplyChunksMode.NotCaughtUp => cares_about_shard_this_epoch
  | ApplyChunksMode.IsCaughtUp =>
      cares_about_shard_this_epoch || cares_about_shard_next_epoch
  | ApplyChunksMode.CatchingUp =>
      !cares_about_shard_this_epoch && cares_about_shard_next_epoch

/-- **C2.** For every valuation of the two care predicates, the set of shards
applied under `NotCaughtUp` and the set applied under `CatchingUp` are
disjoint, and their union is exactly the set applied under `IsCaughtUp`: each
(block, shard) pair is applied exactly once whether the block is processed
once as `IsCaughtUp` or twice as `NotCaughtUp` followed by `CatchingUp`. -/
theorem apply_chunks_mode_partition :
    ∀ cares_this cares_next : Bool,
      (should_apply_transactions ApplyChunksMode.NotCaughtUp cares_this cares_next &&
        should_apply_transactions ApplyChunksMode.CatchingUp cares_this cares_next) = false ∧
      (should_apply_transactions ApplyChunksMode.NotCaughtUp cares_this cares_next ||
        should_apply_transactions ApplyChunksMode.CatchingUp cares_this cares_next) =
        should_apply_transactions ApplyChunksMode.IsCaughtUp cares_this cares_next := by
  decide

/-! ## `OrphanBlockPool` (claims C1, C4, C5)

An orphan (`chain.rs` lines 131-151) carries a block and the instant it was
added; for the pool logic only the block hash, the header height, the header
prev-hash and the elapsed age matter, so an orphan is modelled by those four
numbers (`age` is the value of `added.elapsed()` in whole seconds at the time
of the `add` call under scrutiny). -/

/-- Model of `Orphan`: hash, header height, header prev hash, elapsed age. -/
structure Orphan where
  hash : Nat
  height : Nat
  prev_hash : Nat
  age : Nat
deriving DecidableEq

/-- Model of `OrphanBlockPool` (`chain.rs` lines 160-176). -/
structure OrphanBlockPool where
  orphans : List (Nat × Orphan)
  orphans_requested_missing_chunks : List Nat
  height_idx : List (Nat × List Nat)
  prev_hash_idx : List (Nat × List Nat)
  evicted : Nat
deriving DecidableEq

/-- `OrphanBlockPool::new`. -/
def OrphanBlockPool.new : OrphanBlockPool :=
  { orphans := [], orphans_requested_missing_chunks := [],
    height_idx := [], prev_hash_idx := [], evicted := 0 }

/-- `OrphanBlockPool::len`. -/
def OrphanBlockPool.len (p : OrphanBlockPool) : Nat := p.orphans.length

/-- `x.added.elapsed() < Duration::from_secs(MAX_ORPHAN_AGE_SECS)`: the
`retain` predicate of the age-based eviction pass. -/
def Orphan.keepByAge (o : Orphan) : Bool := o.age < MAX_ORPHAN_AGE_SECS

/-- The `for h in heights.iter().rev()` loop of `OrphanBlockPool::add`
(`chain.rs` lines 224-234): walk the height buckets from the highest height
down; remove each bucket and all its orphans; after each bucket, stop as soon
as the pool is below `MAX_ORPHAN_SIZE`.  Returns the updated height index,
orphans map and removed-hash set. -/
def heightEvictionLoop :
    List Nat → List (Nat × List Nat) → List (Nat × Orphan) → List Nat →
    List (Nat × List Nat) × List (Nat × Orphan) × List Nat
  | [], height_idx, orphans, removed => (height_idx, orphans, removed)
  | h :: rest, height_idx, orphans, removed =>
    match alGet height_idx h with
    | some bucket =>
        let height_idx' := alErase height_idx h
        let orphans' := bucket.foldl (fun os x => alErase os x) orphans
        let removed' := bucket.foldl (fun r x => x :: r) removed
        if orphans'.length < MAX_ORPHAN_SIZE then (height_idx', orphans', removed')
        else heightEvictionLoop rest height_idx' orphans' removed'
    | none =>
        if orphans.length < MAX_ORPHAN_SIZE then (height_idx, orphans, removed)
        else heightEvictionLoop rest height_idx orphans removed

/-- The eviction block of `OrphanBlockPool::add` (`chain.rs` lines 211-241),
entered when the pool size exceeds `MAX_ORPHAN_SIZE`:
1. `retain` all orphans younger than `MAX_ORPHAN_AGE_SECS`, recording the
   removed hashes;
2. collect and sort all heights, walk them from the highest down removing
   whole buckets, checking the capacity only after each bucket removal;
3. `retain` each height / prev-hash bucket iff some member was not removed;
4. drop removed hashes from the requested-missing-chunks set;
5. bump `evicted` by the net number of orphans removed. -/
def OrphanBlockPool.evict (p : OrphanBlockPool) : OrphanBlockPool :=
  let old_len := p.orphans.length
  let removed0 := (p.orphans.filter (fun e => ¬ e.2.keepByAge)).map Prod.fst
  let orphans0 := p.orphans.filter (fun e => e.2.keepByAge)
  let heights := List.insertionSort (· ≤ ·) (p.height_idx.map Prod.fst)
  let st := heightEvictionLoop heights.reverse p.height_idx orphans0 removed0
  let height_idx1 := st.1
  let orphans1 := st.2.1
  let removed1 := st.2.2
  { orphans := orphans1,
    orphans_requested_missing_chunks :=
      p.orphans_requested_missing_chunks.filter (fun x => ¬ x ∈ removed1),
    height_idx := height_idx1.filter (fun e => e.2.any (fun x => ¬ x ∈ removed1)),
    prev_hash_idx := p.prev_hash_idx.filter (fun e => e.2.any (fun x => ¬ x ∈ removed1)),
    evicted := p.evicted + (old_len - orphans1.length) }

/-- `OrphanBlockPool::add` (`chain.rs` lines 199-242). -/
def OrphanBlockPool.add (p : OrphanBlockPool) (orphan : Orphan)
    (requested_missing_chunks : Bool) : OrphanBlockPool :=
  let block_hash := orphan.hash
  let p' : OrphanBlockPool :=
    { orphans := alInsert p.orphans block_hash orphan,
      orphans_requested_missing_chunks :=
        if requested_missing_chunks ∧ ¬ block_hash ∈ p.orphans_requested_missing_chunks
        then block_hash :: p.orphans_requested_missing_chunks
        else p.orphans_requested_missing_chunks,
      height_idx := alPush p.height_idx orphan.height block_hash,
      prev_hash_idx := alPush p.prev_hash_idx orphan.prev_hash block_hash,
      evicted := p.evicted }
  if p'.orphans.length > MAX_ORPHAN_SIZE then p'.evict else p'

/-- `OrphanBlockPool::remove_by_prev_hash` (`chain.rs` lines 264-279). -/
def OrphanBlockPool.remove_by_prev_hash (p : OrphanBlockPool) (prev_hash : Nat) :
    OrphanBlockPool × Option (List Orphan) :=
  match alGet p.prev_hash_idx prev_hash with
  | none => (p, none)
  | some bucket =>
      let removed := bucket
      let st := bucket.foldl
        (fun (s : List (Nat × Orphan) × List Orphan) h =>
          match alGet s.1 h with
          | some o => (alErase s.1 h, s.2 ++ [o])
          | none => s)
        (p.orphans, [])
      let orphans' := st.1
      let ret := st.2
      ({ orphans := orphans',
         orphans_requested_missing_chunks :=
           p.orphans_requested_missing_chunks.filter (fun x => ¬ x ∈ removed),
         height_idx := p.height_idx.filter (fun e => e.2.any (fun x => ¬ x ∈ removed)),
         prev_hash_idx := alErase p.prev_hash_idx prev_hash,
         evicted := p.evicted }, some ret)

/-! ## `get_orphans_within_depth` (claim C4)

`OrphanBlockPool::get_orphans_within_depth` (`chain.rs` lines 283-313) runs a
work-list traversal over `prev_hash_idx`.  The Rust work list is a `Vec` popped
from the back (a stack), and hitting an entry of depth `target_depth` executes
`break`, abandoning whatever is still on the stack.  The loop is modelled with
explicit fuel; `none` models both fuel exhaustion and the
`res.len() <= 100 * target_depth` assertion firing (a panic in Rust).  The
stack is a list whose head is the top; pushing the bucket in order means the
last element of the bucket ends on top, hence the `reverse`. -/

/-- The `while let Some((prev_hash, depth)) = queue.pop()` loop of
`get_orphans_within_depth`. -/
def getOrphansLoop (idx : List (Nat × List Nat)) (target_depth : Nat) :
    List (Nat × Nat) → List Nat → Nat → Option (List Nat)
  | _, _, 0 => none
  | [], res, _ + 1 => some res
  | (prev_hash, depth) :: rest, res, fuel + 1 =>
    if depth = target_depth then some res
    else
      match alGet idx prev_hash with
      | some bucket =>
          let res' := res ++ bucket
          let queue' := (bucket.map (fun h => (h, depth + 1))).reverse ++ rest
          if res'.length ≤ 100 * target_depth then
            getOrphansLoop idx target_depth queue' res' fuel
          else none
      | none =>
          if res.length ≤ 100 * target_depth then
            getOrphansLoop idx target_depth rest res fuel
          else none

/-- `OrphanBlockPool::get_orphans_within_depth`. -/
def OrphanBlockPool.get_orphans_within_depth (p : OrphanBlockPool)
    (parent_hash target_depth fuel : Nat) : Option (List Nat) :=
  getOrphansLoop p.prev_hash_idx target_depth [(parent_hash, 0)] [] fuel

/-- Specification-side definition (from the claim's words): the hashes
reachable from `parent` by following `prev_hash_idx` edges in at most `depth`
steps (the anchor itself excluded). -/
def reachableWithinDepth (idx : List (Nat × List Nat)) (parent : Nat) :
    Nat → List Nat
  | 0 => []
  | depth + 1 =>
      let children := (alGet idx parent).getD []
      children ++ children.flatMap (fun c => reachableWithinDepth idx c depth)

/-- A concrete reachable pool used to refute claim C4: four orphans, anchor
`0` has children `1, 2`; orphan `1` has child `3`; orphan `2` has child `4`. -/
def c4Pool : OrphanBlockPool :=
  ((((OrphanBlockPool.new.add ⟨1, 1, 0, 0⟩ false).add ⟨2, 2, 0, 0⟩ false).add
      ⟨3, 3, 1, 0⟩ false).add ⟨4, 4, 2, 0⟩ false)

/-- **C4, counterexample.** On `c4Pool` with `target_depth = 2`, the traversal
returns `[1, 2, 4]`: orphan `3` is reachable from the anchor in 2 steps yet is
missed, because popping hash `4` at depth 2 executes `break` while the branch
below orphan `1` is still on the stack.  (The assertion bound `100 × 2` is far
from being hit.)  So the traversal does not return exactly the set of orphans
reachable within `target_depth` steps. -/
theorem get_orphans_within_depth_misses_descendants :
    c4Pool.get_orphans_within_depth 0 2 10 = some [1, 2, 4] ∧
    3 ∈ reachableWithinDepth c4Pool.prev_hash_idx 0 2 ∧
    ¬ 3 ∈ [1, 2, 4] := by
  decide

/-- Soundness invariant for the traversal loop: anything the loop returns
beyond `res` comes from the depth-indexed closure of the stack entries. -/
theorem getOrphansLoop_sound (idx : List (Nat × List Nat)) (target_depth : Nat)
    (R : Nat → Prop)
    (fuel : Nat) :
    ∀ (queue : List (Nat × Nat)) (res out : List Nat),
      (∀ h, h ∈ res → R h) →
      (∀ x d, (x, d) ∈ queue → d ≤ target_depth ∧
        ∀ y, y ∈ reachableWithinDepth idx x (target_depth - d) → R y) →
      getOrphansLoop idx target_depth queue res fuel = some out →
      ∀ h, h ∈ out → R h := by
  induction fuel with
  | zero => intro queue res out _ _ hrun; simp [getOrphansLoop] at hrun
  | succ fuel ih =>
    intro queue res out hres hqueue hrun
    match queue with
    | [] =>
      simp [getOrphansLoop] at hrun
      subst hrun; exact hres
    | (prev_hash, depth) :: rest =>
      by_cases hd : depth = target_depth
      · simp [getOrphansLoop, hd] at hrun
        subst hrun; exact hres
      · have hdle : depth ≤ target_depth := (hqueue prev_hash depth (by simp)).1
        have hdlt : depth < target_depth := lt_of_le_of_ne hdle hd
        have hreach := (hqueue prev_hash depth (by simp)).2
        have hstep : target_depth - depth = (target_depth - (depth + 1)) + 1 := by
          omega
        rw [hstep] at hreach
        simp only [reachableWithinDepth] at hreach
        cases hbucket : alGet idx prev_hash with
        | none =>
          simp [getOrphansLoop, hd, hbucket] at hrun
          rcases hrun with ⟨_, hrun⟩
          exact ih rest res out hres (fun x d hx => hqueue x d (by simp [hx])) hrun
        | some bucket =>
          simp only [getOrphansLoop, hd, if_neg hd, hbucket] at hrun
          by_cases hlen : (res ++ bucket).length ≤ 100 * target_depth
          · rw [if_pos hlen] at hrun
            have hchild : ∀ c, c ∈ bucket → R c := by
              intro c hc
              apply hreach
              simp [hbucket]
              exact Or.inl hc
            refine ih _ _ _ ?_ ?_ hrun
            · intro h hh
              rcases List.mem_append.mp hh with hh | hh
              · exact hres h hh
              · exact hchild h hh
            · intro x d hx
              rcases List.mem_append.mp hx with hx | hx
              · rcases List.mem_reverse.mp hx with hx
                rcases List.mem_map.mp hx with ⟨c, hc, hce⟩
                obtain ⟨rfl, rfl⟩ := Prod.mk.inj hce
                refine ⟨hdlt, ?_⟩
                intro y hy
                apply hreach
                simp [hbucket]
                right
                exact ⟨c, hc, hy⟩
              · exact hqueue x d (by simp [hx])
          · rw [if_neg hlen] at hrun
            exact absurd hrun (by simp)

/-- **C4, amended.** The traversal is sound but not complete: whenever
`get_orphans_within_depth` returns (the assertion bound is not hit and the
traversal terminates), every returned hash is reachable from the anchor by
following prev-hash-index edges in at most `target_depth` steps; the converse
fails (see the counterexample), because hitting an entry of depth
`target_depth` breaks out of the loop with branches still unexplored. -/
theorem get_orphans_within_depth_sound (p : OrphanBlockPool)
    (parent_hash target_depth fuel : Nat) (out : List Nat)
    (hrun : p.get_orphans_within_depth parent_hash target_depth fuel = some out) :
    ∀ h, h ∈ out → h ∈ reachableWithinDepth p.prev_hash_idx parent_hash target_depth := by
  refine getOrphansLoop_sound p.prev_hash_idx target_depth
    (fun h => h ∈ reachableWithinDepth p.prev_hash_idx parent_hash target_depth)
    fuel [(parent_hash, 0)] [] out (by simp) ?_ hrun
  intro x d hx
  simp at hx
  obtain ⟨rfl, rfl⟩ := hx
  exact ⟨Nat.zero_le _, by simp⟩

/-- Witness for `get_orphans_within_depth_sound` at a concrete input. -/
theorem get_orphans_within_depth_sound_witness :
    c4Pool.get_orphans_within_depth 0 2 10 = some [1, 2, 4] ∧
      4 ∈ reachableWithinDepth c4Pool.prev_hash_idx 0 2 :=
  ⟨by decide,
    get_orphans_within_depth_sound c4Pool 0 2 10 [1, 2, 4] (by decide) 4 (by decide)⟩

set_option maxRecDepth 100000

/-! ## `OrphanBlockPool::add` eviction (claim C1)

The height-based pass of the eviction block removes the bucket of the highest
height *before* testing the capacity (`chain.rs` lines 224-234: the
`if self.orphans.len() < MAX_ORPHAN_SIZE { break }` sits after the bucket
removal), so it is not conditional on the pool still being over capacity
after the age-based pass. -/

/-- A stale orphan (age 400s > 300s): hash `i`, height `5`, prev hash `0`. -/
def c1Stale (i : Nat) : Orphan := ⟨i, 5, 0, 400⟩

/-- A young orphan already in the pool: hash `5000`, height `5`, prev `0`. -/
def c1Young : Orphan := ⟨5000, 5, 0, 0⟩

/-- The fresh orphan being added: hash `2000`, height `9` (the highest height
in the pool), prev hash `77`, age `0`. -/
def c1Fresh : Orphan := ⟨2000, 9, 77, 0⟩

/-- A pool holding exactly `MAX_ORPHAN_SIZE` orphans — 1023 stale ones plus
the young `c1Young` — with all three indices consistent, exactly as 1024
`add` calls (`c1Young` first, then `c1Stale 0 .. c1Stale 1022`) build them. -/
def c1Pool : OrphanBlockPool :=
  { orphans := ((List.range 1023).reverse.map (fun i => (i, c1Stale i))) ++
      [(5000, c1Young)],
    orphans_requested_missing_chunks := [],
    height_idx := [(5, 5000 :: List.range 1023)],
    prev_hash_idx := [(0, 5000 :: List.range 1023)],
    evicted := 0 }

/-- **C1, counterexample.**  `c1Pool` holds 1024 orphans, 1023 of them older
than 300s; adding the fresh orphan `c1Fresh` (age 0s) overflows the pool.
The age-based pass removes the 1023 stale orphans, leaving 2 orphans — well
under capacity — so under the claim nothing more would be evicted and both
`c1Fresh` (hash 2000) and `c1Young` (hash 5000) would remain.  Instead the
height-based pass removes the highest-height bucket *before* its capacity
check, evicting the fresh orphan `c1Fresh`: the pool ends with only
`c1Young` and the eviction counter at 1024.  This refutes "removes further
orphans ... only if the pool is still over capacity after the age-based
pass" (and with it the "for every choice of the orphans' block heights"
universality of scenario S5). -/
theorem orphan_pool_add_evicts_below_capacity :
    c1Pool.len = MAX_ORPHAN_SIZE ∧
    c1Fresh.age < MAX_ORPHAN_AGE_SECS ∧
    (c1Pool.add c1Fresh false).orphans = [(5000, c1Young)] ∧
    (c1Pool.add c1Fresh false).evicted = 1024 := by
  decide

/-! ### Association-list lemmas and the height-index invariant (for C1) -/

theorem alGet_erase_ne (m : List (Nat × α)) (k k' : Nat) (h : k' ≠ k) :
    alGet (alErase m k) k' = alGet m k' := by
  induction m with
  | nil => rfl
  | cons e t ih =>
    by_cases he : e.1 = k
    · have he' : ¬ e.1 = k' := by rw [he]; exact Ne.symm h
      simp [alErase, alGet, he, he', ih, Ne.symm h]
    · by_cases he' : e.1 = k'
      · simp [alErase, alGet, he, he', h]
      · simp [alErase, alGet, he, he', ih]

theorem alGet_insert_self (m : List (Nat × α)) (k : Nat) (v : α) :
    alGet (alInsert m k v) k = some v := by
  simp [alGet, alInsert]

theorem alGet_insert_ne (m : List (Nat × α)) (k k' : Nat) (v : α) (h : k' ≠ k) :
    alGet (alInsert m k v) k' = alGet m k' := by
  simp [alGet, alInsert, Ne.symm h, alGet_erase_ne m k k' h]

theorem alGet_push_self (m : List (Nat × List Nat)) (k v : Nat) :
    alGet (alPush m k v) k = some (((alGet m k).getD []) ++ [v]) := by
  unfold alPush
  cases h : alGet m k with
  | some xs => simp [h, alGet_insert_self]
  | none => simp [h, alGet_insert_self]

theorem alGet_push_ne (m : List (Nat × List Nat)) (k k' v : Nat) (h : k' ≠ k) :
    alGet (alPush m k v) k' = alGet m k' := by
  unfold alPush
  cases hg : alGet m k with
  | some xs => simp [alGet_insert_ne _ _ _ _ h]
  | none => simp [alGet_insert_ne _ _ _ _ h]

theorem mem_keys_of_alGet_some (m : List (Nat × α)) (k : Nat) (b : α)
    (h : alGet m k = some b) : k ∈ m.map Prod.fst := by
  induction m with
  | nil => simp [alGet] at h
  | cons e t ih =>
    by_cases he : e.1 = k
    · simp [he]
    · simp only [alGet, he, if_false] at h
      simp [ih h]

/-- The invariant the `add` fold maintains on `height_idx`: every hash in a
height bucket belongs to an already-seen orphan with that height, and every
seen orphan's height has a bucket. -/
def HeightIdxInv (hidx : List (Nat × List Nat)) (seen : List Orphan) : Prop :=
  (∀ h bucket, alGet hidx h = some bucket →
    ∀ x, x ∈ bucket → ∃ o, o ∈ seen ∧ o.hash = x ∧ o.height = h) ∧
  (∀ o, o ∈ seen → (alGet hidx o.height).isSome = true)

theorem heightIdxInv_nil : HeightIdxInv [] [] := by
  constructor
  · intro h bucket hget; simp [alGet] at hget
  · intro o ho; simp at ho

theorem heightIdxInv_congr (hidx : List (Nat × List Nat))
    (seen seen' : List Orphan) (hmem : ∀ o, o ∈ seen ↔ o ∈ seen')
    (h : HeightIdxInv hidx seen) : HeightIdxInv hidx seen' := by
  obtain ⟨h1, h2⟩ := h
  constructor
  · intro ht bucket hget x hx
    obtain ⟨o, ho, rest⟩ := h1 ht bucket hget x hx
    exact ⟨o, (hmem o).mp ho, rest⟩
  · intro o ho
    exact h2 o ((hmem o).mpr ho)

theorem heightIdxInv_push (hidx : List (Nat × List Nat)) (seen : List Orphan)
    (o : Orphan) (h : HeightIdxInv hidx seen) :
    HeightIdxInv (alPush hidx o.height o.hash) (o :: seen) := by
  obtain ⟨h1, h2⟩ := h
  constructor
  · intro ht bucket hget x hx
    by_cases hh : ht = o.height
    · subst hh
      rw [alGet_push_self] at hget
      cases hget
      rcases List.mem_append.mp hx with hx | hx
      · cases hb : alGet hidx o.height with
        | none => simp [hb] at hx
        | some xs =>
          rw [hb] at hx
          obtain ⟨o', ho', rest⟩ := h1 o.height xs hb x (by simpa using hx)
          exact ⟨o', List.mem_cons_of_mem _ ho', rest⟩
      · simp at hx
        exact ⟨o, List.mem_cons_self _ _, hx.symm, rfl⟩
    · rw [alGet_push_ne _ _ _ _ hh] at hget
      obtain ⟨o', ho', rest⟩ := h1 ht bucket hget x hx
      exact ⟨o', List.mem_cons_of_mem _ ho', rest⟩
  · intro o' ho'
    rcases List.mem_cons.mp ho' with rfl | ho'
    · simp [alGet_push_self]
    · by_cases hh : o'.height = o.height
      · rw [hh, alGet_push_self]; simp
      · rw [alGet_push_ne _ _ _ _ hh]
        exact h2 o' ho'

theorem alErase_of_not_mem (m : List (Nat × α)) (k : Nat)
    (h : ¬ k ∈ m.map Prod.fst) : alErase m k = m := by
  induction m with
  | nil => rfl
  | cons e t ih =>
    rw [List.map_cons] at h
    have h1 : ¬ e.1 = k := fun he => h (he ▸ List.mem_cons_self _ _)
    have h2 : ¬ k ∈ t.map Prod.fst := fun ht => h (List.mem_cons_of_mem _ ht)
    simp [alErase, h1, ih h2]

/-- `add` with no eviction: when the hash is new and the pool is below
capacity, `add` prepends the orphan and pushes it into both indices. -/
theorem OrphanBlockPool.add_no_evict (p : OrphanBlockPool) (o : Orphan)
    (hkey : ¬ o.hash ∈ p.orphans.map Prod.fst)
    (hlen : p.orphans.length + 1 ≤ MAX_ORPHAN_SIZE) :
    p.add o false =
      { orphans := (o.hash, o) :: p.orphans,
        orphans_requested_missing_chunks := p.orphans_requested_missing_chunks,
        height_idx := alPush p.height_idx o.height o.hash,
        prev_hash_idx := alPush p.prev_hash_idx o.prev_hash o.hash,
        evicted := p.evicted } := by
  unfold OrphanBlockPool.add
  simp only [alInsert, alErase_of_not_mem _ _ hkey]
  have hnot : ¬ ((o.hash, o) :: p.orphans).length > MAX_ORPHAN_SIZE := by
    simp only [List.length_cons]
    omega
  rw [if_neg hnot]
  simp

/-- Folding `add` over fresh, distinct orphans below capacity builds the
orphans map by prepending and maintains the height-index invariant. -/
theorem foldl_add_build (os : List Orphan) :
    ∀ (p : OrphanBlockPool) (seen : List Orphan),
    (p.orphans.map Prod.fst ++ os.map Orphan.hash).Nodup →
    p.orphans.length + os.length ≤ MAX_ORPHAN_SIZE →
    HeightIdxInv p.height_idx seen →
    (os.foldl (fun q o => q.add o false) p).orphans
        = os.reverse.map (fun o => (o.hash, o)) ++ p.orphans ∧
    (os.foldl (fun q o => q.add o false) p).evicted = p.evicted ∧
    HeightIdxInv (os.foldl (fun q o => q.add o false) p).height_idx (os ++ seen) := by
  induction os with
  | nil =>
    intro p seen _ _ hinv
    exact ⟨by simp, rfl, by simpa using hinv⟩
  | cons o t ih =>
    intro p seen hnd hlen hinv
    have hkey : ¬ o.hash ∈ p.orphans.map Prod.fst := by
      rcases List.nodup_append.mp hnd with ⟨_, _, hdisj⟩
      intro hmem
      exact hdisj hmem (by simp)
    have hq := OrphanBlockPool.add_no_evict p o hkey (by simp at hlen; omega)
    have hfold : (o :: t).foldl (fun q o => q.add o false) p
        = t.foldl (fun q o => q.add o false) (p.add o false) := rfl
    rw [hfold, hq]
    have hnd' : (((o.hash, o) :: p.orphans).map Prod.fst ++ t.map Orphan.hash).Nodup := by
      have hperm : List.Perm
          (p.orphans.map Prod.fst ++ o.hash :: t.map Orphan.hash)
          (o.hash :: (p.orphans.map Prod.fst ++ t.map Orphan.hash)) :=
        List.perm_middle
      have hstep := hperm.nodup (by simpa using hnd)
      simpa using hstep
    have hres := ih
      { orphans := (o.hash, o) :: p.orphans,
        orphans_requested_missing_chunks := p.orphans_requested_missing_chunks,
        height_idx := alPush p.height_idx o.height o.hash,
        prev_hash_idx := alPush p.prev_hash_idx o.prev_hash o.hash,
        evicted := p.evicted }
      (o :: seen) hnd' (by simp at hlen ⊢; omega)
      (heightIdxInv_push _ _ _ hinv)
    refine ⟨?_, hres.2.1, ?_⟩
    · rw [hres.1]
      simp
    · refine heightIdxInv_congr _ _ _ ?_ hres.2.2
      intro x
      simp
      tauto

theorem foldl_alErase_singleton (bucket : List Nat) (k : Nat) (v : α)
    (h : ¬ k ∈ bucket) :
    bucket.foldl (fun os x => alErase os x) [(k, v)] = [(k, v)] := by
  induction bucket with
  | nil => rfl
  | cons b t ih =>
    simp at h
    have hb : alErase [(k, v)] b = [(k, v)] := by
      simp [alErase, h.1]
    simp only [List.foldl_cons, hb]
    exact ih h.2

/-- The height loop leaves the orphans map untouched when the pool is already
under capacity and the first bucket removes nothing: the capacity check
breaks out right after the first bucket. -/
theorem heightEvictionLoop_under_capacity (hs : List Nat)
    (hidx : List (Nat × List Nat)) (orphans : List (Nat × Orphan))
    (removed : List Nat)
    (hsmall : orphans.length < MAX_ORPHAN_SIZE)
    (hkeep : ∀ h bucket, hs.head? = some h → alGet hidx h = some bucket →
      bucket.foldl (fun os x => alErase os x) orphans = orphans) :
    (heightEvictionLoop hs hidx orphans removed).2.1 = orphans := by
  cases hs with
  | nil => rfl
  | cons h rest =>
    simp only [heightEvictionLoop]
    cases hg : alGet hidx h with
    | none => simp [hsmall]
    | some bucket =>
      have := hkeep h bucket rfl hg
      simp only [this, hsmall, if_pos]

/-- Behaviour of the eviction block when the age pass leaves exactly one
(young) orphan whose height is strictly below some indexed height: the first
height bucket removed is the highest one, which cannot contain the young
orphan's hash, and the loop then stops, leaving exactly the young orphan. -/
theorem OrphanBlockPool.evict_spec (p : OrphanBlockPool) (fresh : Orphan)
    (stale : List (Nat × Orphan)) (seen : List Orphan)
    (horphans : p.orphans = (fresh.hash, fresh) :: stale)
    (hfresh : fresh.keepByAge = true)
    (hstale : ∀ e ∈ stale, e.2.keepByAge = false)
    (hinv : HeightIdxInv p.height_idx seen)
    (hseen : ∀ o ∈ seen, o.hash = fresh.hash → o.height = fresh.height)
    (hmax : ∃ H, (alGet p.height_idx H).isSome = true ∧ fresh.height < H) :
    p.evict.orphans = [(fresh.hash, fresh)] ∧
    p.evict.evicted = p.evicted + (p.orphans.length - 1) := by
  have horphans0 : p.orphans.filter (fun e => e.2.keepByAge) = [(fresh.hash, fresh)] := by
    rw [horphans]
    simp only [List.filter_cons, hfresh, if_pos]
    have : stale.filter (fun e => e.2.keepByAge) = [] := by
      rw [List.filter_eq_nil_iff]
      intro e he
      simp [hstale e he]
    simp [this]
  have hloop : (heightEvictionLoop
      (List.insertionSort (· ≤ ·) (p.height_idx.map Prod.fst)).reverse
      p.height_idx (p.orphans.filter (fun e => e.2.keepByAge))
      ((p.orphans.filter (fun e => ¬ e.2.keepByAge)).map Prod.fst)).2.1
      = [(fresh.hash, fresh)] := by
    rw [horphans0]
    apply heightEvictionLoop_under_capacity
    · norm_num [MAX_ORPHAN_SIZE]
    · intro h bucket hhead hget
      apply foldl_alErase_singleton
      intro hmem
      obtain ⟨o, ho, hoh, hoht⟩ := hinv.1 h bucket hget fresh.hash hmem
      have hfh : h = fresh.height := by rw [← hoht, hseen o ho hoh]
      obtain ⟨H, hHs, hHgt⟩ := hmax
      obtain ⟨b, hb⟩ := Option.isSome_iff_exists.mp hHs
      have hHkeys : H ∈ p.height_idx.map Prod.fst := mem_keys_of_alGet_some _ _ _ hb
      have hHsorted : H ∈ List.insertionSort (· ≤ ·) (p.height_idx.map Prod.fst) :=
        ((List.perm_insertionSort (· ≤ ·) _).mem_iff).mpr hHkeys
      have hHrev : H ∈ (List.insertionSort (· ≤ ·) (p.height_idx.map Prod.fst)).reverse :=
        List.mem_reverse.mpr hHsorted
      have hsorted : List.Sorted (· ≤ ·)
          (List.insertionSort (· ≤ ·) (p.height_idx.map Prod.fst)) :=
        List.sorted_insertionSort _ _
      have hpw : (List.insertionSort (· ≤ ·) (p.height_idx.map Prod.fst)).reverse.Pairwise
          (fun a b => b ≤ a) := List.pairwise_reverse.mpr hsorted
      cases hhs : (List.insertionSort (· ≤ ·) (p.height_idx.map Prod.fst)).reverse with
      | nil => rw [hhs] at hhead; simp at hhead
      | cons h0 tail =>
        rw [hhs] at hhead hpw hHrev
        simp only [List.head?_cons, Option.some.injEq] at hhead
        have htail := (List.pairwise_cons.mp hpw).1
        have hHle : H ≤ h0 := by
          rcases List.mem_cons.mp hHrev with rfl | hH
          · exact le_refl _
          · exact htail H hH
        rw [hhead] at hHle
        omega
  constructor
  · show (heightEvictionLoop _ _ _ _).2.1 = _
    exact hloop
  · show p.evicted + (p.orphans.length - (heightEvictionLoop _ _ _ _).2.1.length) = _
    rw [hloop]
    simp

/-- **C1, amended.**  When `add` overflows the pool, the age-based pass
removes exactly the orphans aged `MAX_ORPHAN_AGE_SECS` or more, and then the
height-based pass removes the highest-height bucket *unconditionally*,
checking capacity only after each bucket removal.  For scenario S5 this
means: starting from an empty pool, after adding 1024 orphans all older than
300s (with distinct hashes), adding one fresh orphan leaves the pool with
exactly that one fresh entry and the eviction counter at 1024 — provided the
fresh orphan's height is strictly below the height of some old orphan (when
the fresh orphan sits at the maximal height it is itself evicted, see the
counterexample). -/
theorem orphan_pool_add_eviction_s5 (os : List Orphan) (fresh : Orphan)
    (hlen : os.length = MAX_ORPHAN_SIZE)
    (hnd : (os.map Orphan.hash).Nodup)
    (hstale : ∀ o ∈ os, MAX_ORPHAN_AGE_SECS ≤ o.age)
    (hfage : fresh.age < MAX_ORPHAN_AGE_SECS)
    (hfhash : ¬ fresh.hash ∈ os.map Orphan.hash)
    (htall : ∃ o ∈ os, fresh.height < o.height) :
    ((os.foldl (fun p o => p.add o false) OrphanBlockPool.new).add fresh false).orphans
        = [(fresh.hash, fresh)] ∧
    ((os.foldl (fun p o => p.add o false) OrphanBlockPool.new).add fresh false).evicted
        = MAX_ORPHAN_SIZE := by
  obtain ⟨hporphans, hpevicted, hpinv⟩ :=
    foldl_add_build os OrphanBlockPool.new [] (by simpa [OrphanBlockPool.new] using hnd)
      (by simp [OrphanBlockPool.new, hlen]) heightIdxInv_nil
  set P := os.foldl (fun p o => p.add o false) OrphanBlockPool.new with hP
  rw [show OrphanBlockPool.new.orphans = [] from rfl, List.append_nil] at hporphans
  have hPkeys : P.orphans.map Prod.fst = os.reverse.map Orphan.hash := by
    rw [hporphans, List.map_map]
    rfl
  have hkeyf : ¬ fresh.hash ∈ P.orphans.map Prod.fst := by
    rw [hPkeys]
    intro hmem
    exact hfhash (by simpa using hmem)
  have hPlen : P.orphans.length = MAX_ORPHAN_SIZE := by
    rw [hporphans]
    simp [hlen]
  have hpinv' : HeightIdxInv P.height_idx os := by
    refine heightIdxInv_congr _ _ _ ?_ hpinv
    intro x; simp
  -- unfold the overflowing `add`: it inserts and then runs the eviction block
  have haddform : P.add fresh false =
      ({ orphans := (fresh.hash, fresh) :: P.orphans,
         orphans_requested_missing_chunks := P.orphans_requested_missing_chunks,
         height_idx := alPush P.height_idx fresh.height fresh.hash,
         prev_hash_idx := alPush P.prev_hash_idx fresh.prev_hash fresh.hash,
         evicted := P.evicted } : OrphanBlockPool).evict := by
    unfold OrphanBlockPool.add
    simp only [alInsert, alErase_of_not_mem _ _ hkeyf]
    have hgt : ((fresh.hash, fresh) :: P.orphans).length > MAX_ORPHAN_SIZE := by
      simp [hPlen]
    rw [if_pos hgt]
    simp
  obtain ⟨otall, hotall, htallh⟩ := htall
  have hspec := OrphanBlockPool.evict_spec
    { orphans := (fresh.hash, fresh) :: P.orphans,
      orphans_requested_missing_chunks := P.orphans_requested_missing_chunks,
      height_idx := alPush P.height_idx fresh.height fresh.hash,
      prev_hash_idx := alPush P.prev_hash_idx fresh.prev_hash fresh.hash,
      evicted := P.evicted }
    fresh P.orphans (fresh :: os) rfl
    (by simp [Orphan.keepByAge, hfage])
    (by
      intro e he
      rw [hporphans] at he
      simp only [List.mem_map, List.mem_reverse] at he
      obtain ⟨o, ho', rfl⟩ := he
      have hage := hstale o ho'
      simp only [Orphan.keepByAge]
      simp
      omega)
    (heightIdxInv_push _ _ _ hpinv')
    (by
      intro o ho' hoh
      rcases List.mem_cons.mp ho' with rfl | ho'
      · rfl
      · exact absurd (hoh ▸ List.mem_map_of_mem Orphan.hash ho') hfhash)
    (by
      refine ⟨otall.height, ?_, htallh⟩
      exact (heightIdxInv_push P.height_idx os fresh hpinv').2 otall
        (List.mem_cons_of_mem _ hotall))
  rw [haddform]
  refine ⟨hspec.1, ?_⟩
  rw [hspec.2]
  have h0 : P.evicted = 0 := by rw [hpevicted]; rfl
  simp [h0, hPlen]

/-- Concrete stale orphans for the S5 witness: hash and height `i`, prev `0`,
age 400s. -/
def s5Orphans : List Orphan := (List.range 1024).map (fun i => ⟨i, i, 0, 400⟩)

theorem s5Orphans_hashes : s5Orphans.map Orphan.hash = List.range 1024 := by
  simp only [s5Orphans, List.map_map]
  have hc : (Orphan.hash ∘ fun i => (⟨i, i, 0, 400⟩ : Orphan)) = fun i => i := rfl
  rw [hc]
  simp

/-- Witness for `orphan_pool_add_eviction_s5` at a concrete input: 1024
stale orphans of heights `0..1023` and a fresh orphan of height `5`. -/
theorem orphan_pool_add_eviction_s5_witness :
    ((s5Orphans.foldl (fun p o => p.add o false) OrphanBlockPool.new).add
        ⟨5000, 5, 77, 0⟩ false).orphans = [(5000, ⟨5000, 5, 77, 0⟩)] ∧
    ((s5Orphans.foldl (fun p o => p.add o false) OrphanBlockPool.new).add
        ⟨5000, 5, 77, 0⟩ false).evicted = MAX_ORPHAN_SIZE :=
  orphan_pool_add_eviction_s5 s5Orphans ⟨5000, 5, 77, 0⟩
    (by simp [s5Orphans, MAX_ORPHAN_SIZE])
    (by rw [s5Orphans_hashes]; exact List.nodup_range 1024)
    (by
      intro o ho
      simp only [s5Orphans, List.mem_map, List.mem_range] at ho
      obtain ⟨i, _, rfl⟩ := ho
      show MAX_ORPHAN_AGE_SECS ≤ 400
      decide)
    (by decide)
    (by rw [s5Orphans_hashes]; simp)
    ⟨⟨6, 6, 0, 400⟩, by
      simp only [s5Orphans, List.mem_map, List.mem_range]
      exact ⟨6, by omega, rfl⟩, by decide⟩

/-! ## Index consistency of the pool (claim C5)

`add`'s eviction block and `remove_by_prev_hash` prune the height / prev-hash
buckets with `retain(|xs| xs.iter().any(|x| !removed.contains(x)))`
(`chain.rs` lines 235-237 and 276), which keeps a whole bucket — including
hashes of removed orphans — as soon as one member survives.  So a removed
orphan's hash can linger in a bucket: the claimed "iff" consistency fails in
the bucket-to-map direction, while the map-to-bucket direction is an
invariant of every operation sequence. -/

theorem alGet_alErase (m : List (Nat × α)) (k h : Nat) :
    alGet (alErase m k) h = if h = k then none else alGet m h := by
  induction m with
  | nil => simp [alGet, alErase]
  | cons e t ih =>
    simp only [alErase]
    by_cases hek : e.1 = k
    · rw [if_pos hek, ih]
      by_cases hhk : h = k
      · rw [if_pos hhk, if_pos hhk]
      · rw [if_neg hhk, if_neg hhk]
        have heh : ¬ e.1 = h := by rw [hek]; intro hkh; exact hhk hkh.symm
        simp [alGet, heh]
    · rw [if_neg hek]
      simp only [alGet]
      by_cases heh : e.1 = h
      · have hhk : ¬ h = k := by intro hhk; rw [hhk] at heh; exact hek heh
        rw [if_pos heh, if_neg hhk, if_pos heh]
      · rw [if_neg heh, ih]
        by_cases hhk : h = k
        · rw [if_pos hhk, if_pos hhk]
        · rw [if_neg hhk, if_neg hhk, if_neg heh]

theorem alGet_none_of_not_mem_keys (m : List (Nat × α)) (k : Nat)
    (h : ¬ k ∈ m.map Prod.fst) : alGet m k = none := by
  induction m with
  | nil => rfl
  | cons e t ih =>
    rw [List.map_cons] at h
    have h1 : ¬ e.1 = k := fun he => h (he ▸ List.mem_cons_self _ _)
    have h2 : ¬ k ∈ t.map Prod.fst := fun ht => h (List.mem_cons_of_mem _ ht)
    simp [alGet, h1, ih h2]

theorem mem_keys_of_alGet_some_val (m : List (Nat × α)) (k : Nat)
    (h : (alGet m k).isSome = true) : k ∈ m.map Prod.fst := by
  obtain ⟨b, hb⟩ := Option.isSome_iff_exists.mp h
  exact mem_keys_of_alGet_some _ _ _ hb

theorem alErase_sublist (m : List (Nat × α)) (k : Nat) :
    (alErase m k).Sublist m := by
  induction m with
  | nil => simp [alErase]
  | cons e t ih =>
    by_cases he : e.1 = k
    · simp only [alErase, he, if_pos]
      exact ih.cons e
    · simp only [alErase, he, if_neg, ite_false]
      exact ih.cons₂ e

theorem foldl_alErase_sublist (bucket : List Nat) :
    ∀ (os : List (Nat × α)), (bucket.foldl (fun m x => alErase m x) os).Sublist os := by
  induction bucket with
  | nil => intro os; simp
  | cons b t ih =>
    intro os
    exact (ih (alErase os b)).trans (alErase_sublist os b)

theorem alGet_foldl_alErase_some (bucket : List Nat) :
    ∀ (os : List (Nat × α)) (h : Nat) (o : α),
      alGet (bucket.foldl (fun m x => alErase m x) os) h = some o →
      alGet os h = some o ∧ ¬ h ∈ bucket := by
  induction bucket with
  | nil => intro os h o hg; exact ⟨hg, by simp⟩
  | cons b t ih =>
    intro os h o hg
    simp only [List.foldl_cons] at hg
    obtain ⟨hg', hb⟩ := ih (alErase os b) h o hg
    rw [alGet_alErase] at hg'
    by_cases hhb : h = b
    · rw [if_pos hhb] at hg'; cases hg'
    · rw [if_neg hhb] at hg'
      exact ⟨hg', by simp [hhb, hb]⟩

theorem mem_foldl_cons (bucket : List Nat) :
    ∀ (removed : List Nat) (x : Nat),
      x ∈ bucket.foldl (fun r y => y :: r) removed ↔ x ∈ bucket ∨ x ∈ removed := by
  induction bucket with
  | nil => intro removed x; simp
  | cons b t ih =>
    intro removed x
    simp only [List.foldl_cons, ih, List.mem_cons]
    tauto

theorem alGet_filter_some (m : List (Nat × α)) (pred : Nat × α → Bool)
    (k : Nat) (b : α) (hget : alGet m k = some b) (hp : pred (k, b) = true) :
    alGet (m.filter pred) k = some b := by
  induction m with
  | nil => simp [alGet] at hget
  | cons e t ih =>
    obtain ⟨e1, e2⟩ := e
    by_cases he : e1 = k
    · subst he
      simp only [alGet, if_pos] at hget
      simp at hget
      subst hget
      rw [List.filter_cons]
      simp [hp, alGet]
    · simp only [alGet] at hget
      rw [if_neg he] at hget
      rw [List.filter_cons]
      cases hpe : pred (e1, e2)
      · simp [ih hget]
      · simp [alGet, he, ih hget]

theorem alGet_filter_entry_false (m : List (Nat × α)) (pred : Nat × α → Bool)
    (x : Nat) (o : α) (hnd : (m.map Prod.fst).Nodup)
    (hmem : (x, o) ∈ m) (hp : pred (x, o) = false) :
    alGet (m.filter pred) x = none := by
  induction m with
  | nil => simp at hmem
  | cons e t ih =>
    rw [List.map_cons, List.nodup_cons] at hnd
    rcases List.mem_cons.mp hmem with heq | hmem'
    · rw [List.filter_cons, ← heq]
      simp only [hp]
      simp only [Bool.false_eq_true, if_false]
      apply alGet_none_of_not_mem_keys
      intro hk
      have hsub : (List.map Prod.fst (t.filter pred)).Sublist (t.map Prod.fst) :=
        (List.filter_sublist t).map Prod.fst
      have hxk : x ∈ t.map Prod.fst := hsub.mem hk
      rw [← heq] at hnd
      exact hnd.1 hxk
    · have hex : ¬ e.1 = x := by
        intro hex
        apply hnd.1
        rw [hex]
        exact List.mem_map_of_mem Prod.fst hmem'
      rw [List.filter_cons]
      cases hpe : pred e
      · simpa using ih hnd.2 hmem'
      · simp [alGet, hex, ih hnd.2 hmem']

/-- Invariants of the height-eviction loop: the surviving orphans map is a
restriction of the input, every hash in the removed set is absent from the
surviving map, and every input bucket either survives with its key untouched
or had all its members removed from the orphans map. -/
theorem heightEvictionLoop_invariants (hs : List Nat) :
    ∀ (hidx : List (Nat × List Nat)) (orphans : List (Nat × Orphan))
      (removed : List Nat),
    (∀ x, x ∈ removed → alGet orphans x = none) →
    (∀ h o, alGet (heightEvictionLoop hs hidx orphans removed).2.1 h = some o →
      alGet orphans h = some o) ∧
    (∀ x, x ∈ (heightEvictionLoop hs hidx orphans removed).2.2 →
      alGet (heightEvictionLoop hs hidx orphans removed).2.1 x = none) ∧
    (∀ k b, alGet hidx k = some b →
      alGet (heightEvictionLoop hs hidx orphans removed).1 k = some b ∨
      ∀ x, x ∈ b → alGet (heightEvictionLoop hs hidx orphans removed).2.1 x = none) := by
  induction hs with
  | nil =>
    intro hidx orphans removed hrm
    exact ⟨fun h o hg => hg, hrm, fun k b hb => Or.inl hb⟩
  | cons h rest ih =>
    intro hidx orphans removed hrm
    simp only [heightEvictionLoop]
    cases hg : alGet hidx h with
    | none =>
      dsimp only
      by_cases hsmall : orphans.length < MAX_ORPHAN_SIZE
      · rw [if_pos hsmall]
        exact ⟨fun h o hx => hx, hrm, fun k b hb => Or.inl hb⟩
      · rw [if_neg hsmall]
        exact ih hidx orphans removed hrm
    | some bucket =>
      dsimp only
      have hshrink : ∀ x o,
          alGet (bucket.foldl (fun m y => alErase m y) orphans) x = some o →
          alGet orphans x = some o ∧ ¬ x ∈ bucket :=
        fun x o hx => alGet_foldl_alErase_some bucket orphans x o hx
      have hnone : ∀ x, x ∈ bucket →
          alGet (bucket.foldl (fun m y => alErase m y) orphans) x = none := by
        intro x hx
        cases hcases : alGet (bucket.foldl (fun m y => alErase m y) orphans) x with
        | none => rfl
        | some o => exact absurd hx (hshrink x o hcases).2
      have hrm' : ∀ x, x ∈ bucket.foldl (fun r y => y :: r) removed →
          alGet (bucket.foldl (fun m y => alErase m y) orphans) x = none := by
        intro x hx
        rcases (mem_foldl_cons bucket removed x).mp hx with hx | hx
        · exact hnone x hx
        · cases hcases : alGet (bucket.foldl (fun m y => alErase m y) orphans) x with
          | none => rfl
          | some o =>
            have := (hshrink x o hcases).1
            rw [hrm x hx] at this
            cases this
      by_cases hsmall :
          (bucket.foldl (fun m y => alErase m y) orphans).length < MAX_ORPHAN_SIZE
      · rw [if_pos hsmall]
        refine ⟨fun x o hx => (hshrink x o hx).1, hrm', ?_⟩
        intro k b hb
        by_cases hk : k = h
        · subst hk
          rw [hg] at hb
          cases hb
          exact Or.inr (fun x hx => hnone x hx)
        · left
          rw [alGet_alErase]
          rw [if_neg hk]
          exact hb
      · rw [if_neg hsmall]
        obtain ⟨ih1, ih2, ih3⟩ := ih (alErase hidx h)
          (bucket.foldl (fun m y => alErase m y) orphans)
          (bucket.foldl (fun r y => y :: r) removed) hrm'
        refine ⟨fun x o hx => (hshrink x o (ih1 x o hx)).1, ih2, ?_⟩
        intro k b hb
        by_cases hk : k = h
        · subst hk
          rw [hg] at hb
          cases hb
          right
          intro x hx
          cases hcases : alGet (heightEvictionLoop rest (alErase hidx k)
              (bucket.foldl (fun m y => alErase m y) orphans)
              (bucket.foldl (fun r y => y :: r) removed)).2.1 x with
          | none => rfl
          | some o =>
            have := ih1 x o hcases
            rw [hnone x hx] at this
            cases this
        · have hb' : alGet (alErase hidx h) k = some b := by
            rw [alGet_alErase, if_neg hk]
            exact hb
          exact ih3 k b hb'

theorem heightEvictionLoop_sublist (hs : List Nat) :
    ∀ (hidx : List (Nat × List Nat)) (orphans : List (Nat × Orphan))
      (removed : List Nat),
      ((heightEvictionLoop hs hidx orphans removed).2.1).Sublist orphans := by
  induction hs with
  | nil => intro hidx orphans removed; exact List.Sublist.refl _
  | cons h rest ih =>
    intro hidx orphans removed
    simp only [heightEvictionLoop]
    cases hg : alGet hidx h with
    | none =>
      dsimp only
      by_cases hsmall : orphans.length < MAX_ORPHAN_SIZE
      · rw [if_pos hsmall]
      · rw [if_neg hsmall]; exact ih hidx orphans removed
    | some bucket =>
      dsimp only
      by_cases hsmall :
          (bucket.foldl (fun os x => alErase os x) orphans).length < MAX_ORPHAN_SIZE
      · rw [if_pos hsmall]
        exact foldl_alErase_sublist bucket orphans
      · rw [if_neg hsmall]
        exact (ih _ _ _).trans (foldl_alErase_sublist bucket orphans)

theorem alGet_isSome_of_mem_keys (m : List (Nat × α)) (k : Nat)
    (h : k ∈ m.map Prod.fst) : (alGet m k).isSome = true := by
  induction m with
  | nil => simp at h
  | cons e t ih =>
    by_cases he : e.1 = k
    · simp [alGet, he]
    · rw [List.map_cons] at h
      rcases List.mem_cons.mp h with heq | h'
    
      · exact absurd heq.symm he
      · simp [alGet, he, ih h']

theorem not_mem_keys_of_alGet_none (m : List (Nat × α)) (k : Nat)
    (h : alGet m k = none) : ¬ k ∈ m.map Prod.fst := by
  intro hmem
  have hs := alGet_isSome_of_mem_keys m k hmem
  rw [h] at hs
  cases hs

theorem nodup_keys_alInsert (m : List (Nat × α)) (k : Nat) (v : α)
    (hnd : (m.map Prod.fst).Nodup) : ((alInsert m k v).map Prod.fst).Nodup := by
  simp only [alInsert, List.map_cons, List.nodup_cons]
  constructor
  · apply not_mem_keys_of_alGet_none
    rw [alGet_alErase]
    simp
  · exact ((alErase_sublist m k).map Prod.fst).nodup hnd

theorem alGet_of_alGet_filter (m : List (Nat × α)) (pred : Nat × α → Bool)
    (k : Nat) (b : α) (hnd : (m.map Prod.fst).Nodup)
    (h : alGet (m.filter pred) k = some b) : alGet m k = some b := by
  induction m with
  | nil => simp [alGet] at h
  | cons e t ih =>
    rw [List.map_cons, List.nodup_cons] at hnd
    rw [List.filter_cons] at h
    by_cases he : e.1 = k
    · cases hpe : pred e
      · rw [hpe] at h
        simp only [Bool.false_eq_true, if_false] at h
        have hk : k ∈ (t.filter pred).map Prod.fst := mem_keys_of_alGet_some _ _ _ h
        have : k ∈ t.map Prod.fst := (((List.filter_sublist t).map Prod.fst).mem) hk
        exact absurd (he ▸ this) hnd.1
      · rw [hpe] at h
        simp only [if_true] at h
        simp only [alGet, he, if_pos] at h ⊢
        exact h
    · cases hpe : pred e
      · rw [hpe] at h
        simp only [Bool.false_eq_true, if_false] at h
        simp [alGet, he, ih hnd.2 h]
      · rw [hpe] at h
        simp only [if_true, alGet, he, if_neg, ite_false] at h
        simp [alGet, he, ih hnd.2 h]

/-- Well-formedness of the pool: the orphans map has no duplicate keys, and
every stored orphan's hash appears in the height bucket for its height and in
the prev-hash bucket for its prev hash (the map-to-bucket direction of the
claimed index consistency). -/
def PoolWF (p : OrphanBlockPool) : Prop :=
  (p.orphans.map Prod.fst).Nodup ∧
  (∀ h o, alGet p.orphans h = some o →
    h ∈ (alGet p.height_idx o.height).getD [] ∧
    h ∈ (alGet p.prev_hash_idx o.prev_hash).getD [])

theorem poolWF_new : PoolWF OrphanBlockPool.new := by
  constructor
  · simp [OrphanBlockPool.new]
  · intro h o hg
    simp [OrphanBlockPool.new, alGet] at hg

/-- The eviction block preserves well-formedness: a surviving orphan's hash
stays in its height bucket (the bucket was not erased, else the orphan would
have been removed, and the bucket passes the retain because the surviving
hash is not in the removed set) and in its prev-hash bucket. -/
theorem OrphanBlockPool.evict_wf (p : OrphanBlockPool) (hwf : PoolWF p) :
    PoolWF p.evict := by
  obtain ⟨hnd, hfwd⟩ := hwf
  have hrm0 : ∀ x, x ∈ (p.orphans.filter (fun e => ¬ e.2.keepByAge)).map Prod.fst →
      alGet (p.orphans.filter (fun e => e.2.keepByAge)) x = none := by
    intro x hx
    obtain ⟨e, he, hex⟩ := List.mem_map.mp hx
    obtain ⟨he1, he2⟩ := List.mem_filter.mp he
    obtain ⟨x', o'⟩ := e
    cases hex
    apply alGet_filter_entry_false _ _ _ o' hnd he1
    simpa using he2
  obtain ⟨L1, L2, L3⟩ := heightEvictionLoop_invariants
    (List.insertionSort (· ≤ ·) (p.height_idx.map Prod.fst)).reverse
    p.height_idx (p.orphans.filter (fun e => e.2.keepByAge))
    ((p.orphans.filter (fun e => ¬ e.2.keepByAge)).map Prod.fst) hrm0
  have hsub := heightEvictionLoop_sublist
    (List.insertionSort (· ≤ ·) (p.height_idx.map Prod.fst)).reverse
    p.height_idx (p.orphans.filter (fun e => e.2.keepByAge))
    ((p.orphans.filter (fun e => ¬ e.2.keepByAge)).map Prod.fst)
  set st := heightEvictionLoop
    (List.insertionSort (· ≤ ·) (p.height_idx.map Prod.fst)).reverse
    p.height_idx (p.orphans.filter (fun e => e.2.keepByAge))
    ((p.orphans.filter (fun e => ¬ e.2.keepByAge)).map Prod.fst) with hstdef
  constructor
  · show (st.2.1.map Prod.fst).Nodup
    exact ((hsub.trans (List.filter_sublist p.orphans)).map Prod.fst).nodup hnd
  · intro h o hget
    replace hget : alGet st.2.1 h = some o := hget
    have hget0 := L1 h o hget
    have hgetp : alGet p.orphans h = some o :=
      alGet_of_alGet_filter _ _ _ _ hnd hget0
    obtain ⟨hheight, hprev⟩ := hfwd h o hgetp
    have hnotrm : ¬ h ∈ st.2.2 := by
      intro hmm
      have := L2 h hmm
      rw [hget] at this
      cases this
    constructor
    · -- height bucket
      cases hbH : alGet p.height_idx o.height with
      | none => rw [hbH] at hheight; simp at hheight
      | some bucketH =>
        rw [hbH] at hheight
        simp only [Option.getD_some] at hheight
        rcases L3 o.height bucketH hbH with hkeep | hgone
        · have hpred : (fun e : Nat × List Nat =>
              e.2.any (fun x => ¬ x ∈ st.2.2)) (o.height, bucketH) = true := by
            simp only [List.any_eq_true]
            exact ⟨h, hheight, by simpa using hnotrm⟩
          have hkept := alGet_filter_some st.1
            (fun e : Nat × List Nat => e.2.any (fun x => ¬ x ∈ st.2.2))
            o.height bucketH hkeep hpred
          show h ∈ (alGet (st.1.filter
            (fun e : Nat × List Nat => e.2.any (fun x => ¬ x ∈ st.2.2)))
            o.height).getD []
          rw [hkept]
          simpa using hheight
        · have := hgone h hheight
          rw [hget] at this
          cases this
    · -- prev bucket
      cases hbP : alGet p.prev_hash_idx o.prev_hash with
      | none => rw [hbP] at hprev; simp at hprev
      | some bucketP =>
        rw [hbP] at hprev
        simp only [Option.getD_some] at hprev
        have hpred : (fun e : Nat × List Nat =>
            e.2.any (fun x => ¬ x ∈ st.2.2)) (o.prev_hash, bucketP) = true := by
          simp only [List.any_eq_true]
          exact ⟨h, hprev, by simpa using hnotrm⟩
        have hkept := alGet_filter_some p.prev_hash_idx
          (fun e : Nat × List Nat => e.2.any (fun x => ¬ x ∈ st.2.2))
          o.prev_hash bucketP hbP hpred
        show h ∈ (alGet (p.prev_hash_idx.filter
          (fun e : Nat × List Nat => e.2.any (fun x => ¬ x ∈ st.2.2)))
          o.prev_hash).getD []
        rw [hkept]
        simpa using hprev

/-- `add` preserves well-formedness. -/
theorem OrphanBlockPool.add_wf (p : OrphanBlockPool) (o : Orphan) (req : Bool)
    (hwf : PoolWF p) : PoolWF (p.add o req) := by
  obtain ⟨hnd, hfwd⟩ := hwf
  have hwf' : PoolWF
      { orphans := alInsert p.orphans o.hash o,
        orphans_requested_missing_chunks :=
          if req ∧ ¬ o.hash ∈ p.orphans_requested_missing_chunks
          then o.hash :: p.orphans_requested_missing_chunks
          else p.orphans_requested_missing_chunks,
        height_idx := alPush p.height_idx o.height o.hash,
        prev_hash_idx := alPush p.prev_hash_idx o.prev_hash o.hash,
        evicted := p.evicted } := by
    constructor
    · exact nodup_keys_alInsert _ _ _ hnd
    · intro h o' hget
      by_cases hh : h = o.hash
      · rw [hh, alGet_insert_self] at hget
        injection hget with ho'
        subst ho'
        constructor
        · show h ∈ (alGet (alPush p.height_idx o.height o.hash) o.height).getD []
          rw [alGet_push_self]
          simp [hh]
        · show h ∈ (alGet (alPush p.prev_hash_idx o.prev_hash o.hash) o.prev_hash).getD []
          rw [alGet_push_self]
          simp [hh]
      · rw [alGet_insert_ne _ _ _ _ hh] at hget
        obtain ⟨hheight, hprev⟩ := hfwd h o' hget
        constructor
        · show h ∈ (alGet (alPush p.height_idx o.height o.hash) o'.height).getD []
          by_cases hk : o'.height = o.height
          · rw [hk, alGet_push_self]
            simp only [Option.getD_some]
            rw [← hk]
            exact List.mem_append.mpr (Or.inl hheight)
          · rw [alGet_push_ne _ _ _ _ hk]
            exact hheight
        · show h ∈ (alGet (alPush p.prev_hash_idx o.prev_hash o.hash) o'.prev_hash).getD []
          by_cases hk : o'.prev_hash = o.prev_hash
          · rw [hk, alGet_push_self]
            simp only [Option.getD_some]
            rw [← hk]
            exact List.mem_append.mpr (Or.inl hprev)
          · rw [alGet_push_ne _ _ _ _ hk]
            exact hprev
  unfold OrphanBlockPool.add
  dsimp only
  split
  · exact OrphanBlockPool.evict_wf _ hwf'
  · exact hwf'

theorem removeFold_fst (bucket : List Nat) :
    ∀ (s : List (Nat × Orphan) × List Orphan),
      (bucket.foldl
        (fun (s : List (Nat × Orphan) × List Orphan) h =>
          match alGet s.1 h with
          | some o => (alErase s.1 h, s.2 ++ [o])
          | none => s)
        s).1 = bucket.foldl (fun os x => alErase os x) s.1 := by
  induction bucket with
  | nil => intro s; rfl
  | cons b t ih =>
    intro s
    simp only [List.foldl_cons]
    cases hg : alGet s.1 b with
    | some o => exact ih (alErase s.1 b, s.2 ++ [o])
    | none =>
      rw [ih s]
      have : alErase s.1 b = s.1 :=
        alErase_of_not_mem _ _ (not_mem_keys_of_alGet_none _ _ hg)
      rw [this]

/-- `remove_by_prev_hash` preserves well-formedness. -/
theorem OrphanBlockPool.remove_by_prev_hash_wf (p : OrphanBlockPool) (ph : Nat)
    (hwf : PoolWF p) : PoolWF (p.remove_by_prev_hash ph).1 := by
  obtain ⟨hnd, hfwd⟩ := hwf
  unfold OrphanBlockPool.remove_by_prev_hash
  cases hg : alGet p.prev_hash_idx ph with
  | none => exact ⟨hnd, hfwd⟩
  | some bucket =>
    dsimp only
    constructor
    · show (((bucket.foldl _ (p.orphans, [])).1).map Prod.fst).Nodup
      rw [removeFold_fst]
      exact ((foldl_alErase_sublist bucket p.orphans).map Prod.fst).nodup hnd
    · intro h o hget
      replace hget : alGet (bucket.foldl
          (fun (s : List (Nat × Orphan) × List Orphan) x =>
            match alGet s.1 x with
            | some o => (alErase s.1 x, s.2 ++ [o])
            | none => s)
          (p.orphans, [])).1 h = some o := hget
      rw [removeFold_fst] at hget
      obtain ⟨hgetp, hnb⟩ := alGet_foldl_alErase_some bucket p.orphans h o hget
      obtain ⟨hheight, hprev⟩ := hfwd h o hgetp
      constructor
      · cases hbH : alGet p.height_idx o.height with
        | none => rw [hbH] at hheight; simp at hheight
        | some bucketH =>
          rw [hbH] at hheight
          simp only [Option.getD_some] at hheight
          have hpred : (fun e : Nat × List Nat =>
              e.2.any (fun x => ¬ x ∈ bucket)) (o.height, bucketH) = true := by
            simp only [List.any_eq_true]
            exact ⟨h, hheight, by simpa using hnb⟩
          have hkept := alGet_filter_some p.height_idx
            (fun e : Nat × List Nat => e.2.any (fun x => ¬ x ∈ bucket))
            o.height bucketH hbH hpred
          show h ∈ (alGet (p.height_idx.filter
            (fun e : Nat × List Nat => e.2.any (fun x => ¬ x ∈ bucket)))
            o.height).getD []
          rw [hkept]
          simpa using hheight
      · show h ∈ (alGet (alErase p.prev_hash_idx ph) o.prev_hash).getD []
        by_cases hpp : o.prev_hash = ph
        · exfalso
          rw [hpp, hg] at hprev
          simp only [Option.getD_some] at hprev
          exact hnb hprev
        · rw [alGet_alErase, if_neg hpp]
          exact hprev

/-- The pool operations named by the claim: `add` (including its eviction
path) and `remove_by_prev_hash`. -/
inductive PoolOp
  | addOrphan (o : Orphan) (req : Bool)
  | removeByPrev (ph : Nat)

/-- Apply one pool operation. -/
def applyPoolOp (p : OrphanBlockPool) : PoolOp → OrphanBlockPool
  | PoolOp.addOrphan o req => p.add o req
  | PoolOp.removeByPrev ph => (p.remove_by_prev_hash ph).1

/-- Run a sequence of pool operations from the empty pool. -/
def runPoolOps (ops : List PoolOp) : OrphanBlockPool :=
  ops.foldl applyPoolOp OrphanBlockPool.new

theorem runPoolOps_wf (ops : List PoolOp) : PoolWF (runPoolOps ops) := by
  suffices hstep : ∀ (p : OrphanBlockPool), PoolWF p → PoolWF (ops.foldl applyPoolOp p) from
    hstep OrphanBlockPool.new poolWF_new
  induction ops with
  | nil => intro p hp; exact hp
  | cons op rest ih =>
    intro p hp
    refine ih (applyPoolOp p op) ?_
    cases op with
    | addOrphan o req => exact OrphanBlockPool.add_wf p o req hp
    | removeByPrev ph => exact OrphanBlockPool.remove_by_prev_hash_wf p ph hp

/-- The pool reached by the two adds and one removal of the counterexample:
two orphans at the same height with different prev hashes, then the first
orphan's prev arrives. -/
def c5Pool : OrphanBlockPool :=
  (((OrphanBlockPool.new.add ⟨1, 5, 10, 0⟩ false).add
      ⟨2, 5, 11, 0⟩ false).remove_by_prev_hash 10).1

/-- **C5, counterexample.**  After adding orphans `1` and `2` (both at height
5, with prev hashes 10 and 11) and removing by prev hash 10, orphan `1` is
gone from the orphans map, yet its hash still sits in the height-5 bucket:
the bucket `retain` keeps the whole bucket because orphan `2` survives in it
(`chain.rs` line 276).  So a height-index bucket contains a hash that is
absent from the orphans map, refuting the claimed mutual consistency. -/
theorem orphan_pool_index_inconsistency :
    alGet c5Pool.orphans 1 = none ∧
    1 ∈ (alGet c5Pool.height_idx 5).getD [] := by
  decide

/-- **C5, amended.**  After every sequence of pool operations, the
map-to-bucket direction of the consistency holds: every hash that is a key
of the orphans map occurs in the height-index bucket for its block's height
and in the prev-hash-index bucket for its block's prev hash.  The converse
fails (see the counterexample): removal filters whole buckets by whether any
member survives, so buckets may retain hashes of removed orphans. -/
theorem orphan_pool_forward_index_invariant (ops : List PoolOp) (h : Nat)
    (o : Orphan) (hget : alGet (runPoolOps ops).orphans h = some o) :
    h ∈ (alGet (runPoolOps ops).height_idx o.height).getD [] ∧
    h ∈ (alGet (runPoolOps ops).prev_hash_idx o.prev_hash).getD [] :=
  (runPoolOps_wf ops).2 h o hget

/-- Witness for `orphan_pool_forward_index_invariant` at a concrete input. -/
theorem orphan_pool_forward_index_invariant_witness :
    2 ∈ (alGet (runPoolOps [PoolOp.addOrphan ⟨1, 5, 10, 0⟩ false,
        PoolOp.addOrphan ⟨2, 5, 11, 0⟩ false,
        PoolOp.removeByPrev 10]).height_idx (5 : Nat)).getD [] ∧
    2 ∈ (alGet (runPoolOps [PoolOp.addOrphan ⟨1, 5, 10, 0⟩ false,
        PoolOp.addOrphan ⟨2, 5, 11, 0⟩ false,
        PoolOp.removeByPrev 10]).prev_hash_idx (11 : Nat)).getD [] :=
  orphan_pool_forward_index_invariant
    [PoolOp.addOrphan ⟨1, 5, 10, 0⟩ false, PoolOp.addOrphan ⟨2, 5, 11, 0⟩ false,
     PoolOp.removeByPrev 10] 2 ⟨2, 5, 11, 0⟩ (by decide)

/-! ## `process_split_state`: gas and balance split (claim C6)

When a parent shard's `ChunkExtra` is split into the `n` children of the next
shard layout (`chain.rs` lines 3975-4013), each child's `gas_burnt` is
`total_gas_used / n` plus one extra unit iff the child's shard id is below
`total_gas_used % n`, and likewise for `balance_burnt`.  `u64`/`u128`
arithmetic cannot overflow here (the sums reproduce the parent totals), so
plain naturals model it faithfully.  The children's shard ids come from
`get_split_shard_uids` of the next shard layout, which is outside `src/`;
in the only layout transition of this code era the parent splits into the
children with shard ids `0 .. n-1`, which the permutation hypothesis below
captures. -/

/-- A per-child split-state application result (`shard_uid` and new root). -/
structure ApplySplitStateResult where
  shard_id : Nat
  new_root : Nat
deriving DecidableEq

/-- The fields of `ChunkExtra` relevant to the split. -/
structure ChunkExtra where
  state_root : Nat
  gas_burnt : Nat
  balance_burnt : Nat
deriving DecidableEq

/-- The children's `ChunkExtra`s written by the `for result in results` loop
of `process_split_state`. -/
def process_split_state (total_gas_used total_balance_burnt : Nat)
    (num_split_shards : Nat) (results : List ApplySplitStateResult) :
    List (Nat × ChunkExtra) :=
  let gas_res := total_gas_used % num_split_shards
  let gas_split := total_gas_used / num_split_shards
  let balance_res := total_balance_burnt % num_split_shards
  let balance_split := total_balance_burnt / num_split_shards
  results.map (fun result =>
    (result.shard_id,
     { state_root := result.new_root,
       gas_burnt := gas_split + if result.shard_id < gas_res then 1 else 0,
       balance_burnt :=
         balance_split + if result.shard_id < balance_res then 1 else 0 }))

/-- `sum_gas_used` accumulated by the loop. -/
def sum_gas_used (extras : List (Nat × ChunkExtra)) : Nat :=
  (extras.map (fun e => e.2.gas_burnt)).sum

/-- `sum_balance_burnt` accumulated by the loop. -/
def sum_balance_burnt (extras : List (Nat × ChunkExtra)) : Nat :=
  (extras.map (fun e => e.2.balance_burnt)).sum

theorem sum_map_const_range (c : Nat) : ∀ n : Nat,
    ((List.range n).map (fun _ => c)).sum = n * c := by
  intro n
  induction n with
  | zero => simp
  | succ m ih =>
    rw [List.range_succ, List.map_append, List.sum_append, ih]
    simp
    ring

theorem sum_range_split (q : Nat) : ∀ (n r : Nat), r ≤ n →
    ((List.range n).map (fun i => q + if i < r then 1 else 0)).sum = n * q + r := by
  intro n
  induction n with
  | zero =>
    intro r hr
    interval_cases r
    simp
  | succ n ih =>
    intro r hr
    rw [List.range_succ, List.map_append, List.sum_append]
    by_cases hrn : r ≤ n
    · rw [ih r hrn]
      have : ¬ n < r := by omega
      simp [this]
      ring
    · have hreq : r = n + 1 := by omega
      subst hreq
      have hcongr : (List.range n).map (fun i => q + if i < n + 1 then 1 else 0)
          = (List.range n).map (fun _ => q + 1) := by
        apply List.map_congr_left
        intro i hi
        have : i < n + 1 := by
          have := List.mem_range.mp hi
          omega
        simp [this]
      rw [hcongr, sum_map_const_range (q + 1) n]
      have : n < n + 1 := by omega
      simp [this]
      ring

/-- **C6.** When the children's shard ids are exactly `0 .. n-1` (as in the
shard-layout split this code performs), each child's `gas_burnt` is the
integer quotient with the first `total_gas_used % n` children receiving one
extra unit, likewise for `balance_burnt`, and the children's burnt values sum
exactly to the parent totals: the two `assert_eq` checks of
`process_split_state` never fire. -/
theorem process_split_state_split_exact (g b n : Nat) (hn : 0 < n)
    (results : List ApplySplitStateResult)
    (hids : (results.map ApplySplitStateResult.shard_id).Perm (List.range n)) :
    (∀ e ∈ process_split_state g b n results,
      e.2.gas_burnt = g / n + (if e.1 < g % n then 1 else 0) ∧
      e.2.balance_burnt = b / n + (if e.1 < b % n then 1 else 0)) ∧
    sum_gas_used (process_split_state g b n results) = g ∧
    sum_balance_burnt (process_split_state g b n results) = b := by
  refine ⟨?_, ?_, ?_⟩
  · intro e he
    obtain ⟨result, _, rfl⟩ := List.mem_map.mp he
    exact ⟨rfl, rfl⟩
  · show ((process_split_state g b n results).map (fun e => e.2.gas_burnt)).sum = g
    have hmap : (process_split_state g b n results).map (fun e => e.2.gas_burnt)
        = (results.map ApplySplitStateResult.shard_id).map
            (fun i => g / n + if i < g % n then 1 else 0) := by
      simp [process_split_state, List.map_map]
    rw [hmap, (hids.map (fun i => g / n + if i < g % n then 1 else 0)).sum_eq]
    rw [sum_range_split (g / n) n (g % n) (le_of_lt (Nat.mod_lt g hn))]
    exact Nat.div_add_mod g n
  · show ((process_split_state g b n results).map (fun e => e.2.balance_burnt)).sum = b
    have hmap : (process_split_state g b n results).map (fun e => e.2.balance_burnt)
        = (results.map ApplySplitStateResult.shard_id).map
            (fun i => b / n + if i < b % n then 1 else 0) := by
      simp [process_split_state, List.map_map]
    rw [hmap, (hids.map (fun i => b / n + if i < b % n then 1 else 0)).sum_eq]
    rw [sum_range_split (b / n) n (b % n) (le_of_lt (Nat.mod_lt b hn))]
    exact Nat.div_add_mod b n

/-- Witness for `process_split_state_split_exact`: 4 children, 10 gas and 7
balance to split. -/
theorem process_split_state_split_exact_witness :
    (∀ e ∈ process_split_state 10 7 4
        [⟨0, 100⟩, ⟨1, 101⟩, ⟨2, 102⟩, ⟨3, 103⟩],
      e.2.gas_burnt = 10 / 4 + (if e.1 < 10 % 4 then 1 else 0) ∧
      e.2.balance_burnt = 7 / 4 + (if e.1 < 7 % 4 then 1 else 0)) ∧
    sum_gas_used (process_split_state 10 7 4
        [⟨0, 100⟩, ⟨1, 101⟩, ⟨2, 102⟩, ⟨3, 103⟩]) = 10 ∧
    sum_balance_burnt (process_split_state 10 7 4
        [⟨0, 100⟩, ⟨1, 101⟩, ⟨2, 102⟩, ⟨3, 103⟩]) = 7 :=
  process_split_state_split_exact 10 7 4 (by decide)
    [⟨0, 100⟩, ⟨1, 101⟩, ⟨2, 102⟩, ⟨3, 103⟩] (by decide)

/-! ## Head updates (claim C9) and known-block checks (claim C10) -/

/-- Model of `Tip` (last block hash, prev block hash, height). -/
structure Tip where
  last_block_hash : Nat
  prev_block_hash : Nat
  height : Nat
deriving DecidableEq

/-- Model of `BlockHeader`: the fields `update_head` and the known-checks
read. -/
structure BlockHeader where
  hash : Nat
  prev_hash : Nat
  height : Nat
  last_final_block : Nat
deriving DecidableEq

/-- `Tip::from_header`. -/
def Tip.from_header (header : BlockHeader) : Tip :=
  { last_block_hash := header.hash, prev_block_hash := header.prev_hash,
    height := header.height }

/-- The store state `ChainUpdate::update_head` reads and writes: the body
head, the final head, and the block headers column. -/
structure HeadState where
  head : Tip
  final_head : Tip
  headers : Nat → Option BlockHeader

/-- `ChainUpdate::update_final_head_from_block` (`chain.rs` lines
4634-4651): a missing `last_final_block` header is `DBNotFoundErr` and
yields `Ok(None)`; otherwise the final head advances on strictly greater
height. -/
def update_final_head_from_block (s : HeadState) (header : BlockHeader) :
    HeadState × Option Tip :=
  match s.headers header.last_final_block with
  | none => (s, none)
  | some last_final_block_header =>
      if last_final_block_header.height > s.final_head.height then
        let tip := Tip.from_header last_final_block_header
        ({ s with final_head := tip }, some tip)
      else (s, none)

/-- `ChainUpdate::update_head` (`chain.rs` lines 4655-4670): update the
final head first, then replace the body head only on strictly greater
height.  `ChainUpdate::process_block` returns this function's value
verbatim (`chain.rs` lines 4370 and 4392). -/
def update_head (s : HeadState) (header : BlockHeader) :
    HeadState × Option Tip :=
  let s1 := (update_final_head_from_block s header).1
  if header.height > s1.head.height then
    let tip := Tip.from_header header
    ({ s1 with head := tip }, some tip)
  else (s1, none)

theorem update_final_head_preserves_head (s : HeadState) (header : BlockHeader) :
    (update_final_head_from_block s header).1.head = s.head := by
  unfold update_final_head_from_block
  cases s.headers header.last_final_block with
  | none => rfl
  | some lf =>
    dsimp only
    split
    · rfl
    · rfl

/-- **C9.** The body head advances only on strictly greater height: for a
header whose height is at most the current head height, `update_head`
returns `None` and leaves the persisted head tip unchanged (the final head
may still advance); in particular a fork block at exactly the head's height
never replaces the head, and `process_block` — which returns `update_head`'s
value — returns `None` for such a block. -/
theorem update_head_no_advance (s : HeadState) (header : BlockHeader)
    (hle : header.height ≤ s.head.height) :
    (update_head s header).2 = none ∧ (update_head s header).1.head = s.head := by
  unfold update_head
  have hh := update_final_head_preserves_head s header
  have hnot : ¬ header.height > (update_final_head_from_block s header).1.head.height := by
    rw [hh]
    omega
  rw [if_neg hnot]
  exact ⟨rfl, hh⟩

/-- Witness for `update_head_no_advance`: a fork header at exactly the head
height. -/
theorem update_head_no_advance_witness :
    (update_head
      { head := ⟨50, 49, 10⟩, final_head := ⟨40, 39, 8⟩, headers := fun _ => none }
      ⟨51, 49, 10, 40⟩).2 = none ∧
    (update_head
      { head := ⟨50, 49, 10⟩, final_head := ⟨40, 39, 8⟩, headers := fun _ => none }
      ⟨51, 49, 10, 40⟩).1.head = ⟨50, 49, 10⟩ :=
  update_head_no_advance
    { head := ⟨50, 49, 10⟩, final_head := ⟨40, 39, 8⟩, headers := fun _ => none }
    ⟨51, 49, 10, 40⟩ (by decide)

/-- Model of `BlockKnownError`. -/
inductive BlockKnownError
  | KnownInHead
  | KnownInHeader
  | KnownInOrphan
  | KnownInMissingChunks
  | KnownInStore
deriving DecidableEq

/-- The chain state read by the known-checks: the two head tips, the two
in-memory pools, and the store existence lookup. -/
structure ChainAccessModel where
  head : Tip
  header_head : Tip
  orphans_contains : Nat → Bool
  missing_chunks_contains : Nat → Bool
  block_exists : Nat → Bool

/-- `check_known_store` (`chain.rs` lines 379-389). -/
def check_known_store (c : ChainAccessModel) (block_hash : Nat) :
    Except BlockKnownError Unit :=
  if c.block_exists block_hash then Except.error BlockKnownError.KnownInStore
  else Except.ok ()

/-- `check_known` (`chain.rs` lines 395-412): head (last and prev hash)
first, then orphans, then missing-chunks, then the store. -/
def check_known (c : ChainAccessModel) (block_hash : Nat) :
    Except BlockKnownError Unit :=
  if block_hash = c.head.last_block_hash ∨ block_hash = c.head.prev_block_hash then
    Except.error BlockKnownError.KnownInHead
  else if c.orphans_contains block_hash then
    Except.error BlockKnownError.KnownInOrphan
  else if c.missing_chunks_contains block_hash then
    Except.error BlockKnownError.KnownInMissingChunks
  else check_known_store c block_hash

/-- `check_header_known` (`chain.rs` lines 362-373). -/
def check_header_known (c : ChainAccessModel) (header : BlockHeader) :
    Except BlockKnownError Unit :=
  if header.hash = c.header_head.last_block_hash ∨
      header.hash = c.header_head.prev_block_hash then
    Except.error BlockKnownError.KnownInHeader
  else check_known_store c header.hash

/-- Errors of the `process_block` prefix before the heavy work. -/
inductive ProcessBlockError
  | EpochOutOfBounds
  | IncorrectNumberOfChunkHeaders
  | BlockKnown (e : BlockKnownError)
deriving DecidableEq

/-- The prefix of `ChainUpdate::process_block` (`chain.rs` lines 4176-4190):
epoch existence, chunk-header count, then `check_known`. -/
def process_block_known_checks (c : ChainAccessModel) (epoch_exists : Bool)
    (num_chunks num_shards : Nat) (block_hash : Nat) :
    Except ProcessBlockError Unit :=
  if ¬ epoch_exists then Except.error ProcessBlockError.EpochOutOfBounds
  else if ¬ num_chunks = num_shards then
    Except.error ProcessBlockError.IncorrectNumberOfChunkHeaders
  else
    match check_known c block_hash with
    | Except.error e => Except.error (ProcessBlockError.BlockKnown e)
    | Except.ok _ => Except.ok ()

/-- **C10.** `check_known` answers `KnownInHead` for the head's
`prev_block_hash` (not only for the head hash itself), `check_header_known`
answers `KnownInHeader` for the header head's `prev_block_hash`, and the
`process_block` prefix invoked on the parent of the current head fails with
`BlockKnown(KnownInHead)` — for every valuation of the store existence
oracle, i.e. before any store existence lookup is made. -/
theorem check_known_prev_of_head (c : ChainAccessModel) (block_hash : Nat)
    (header : BlockHeader) (epoch_exists : Bool) (num_chunks num_shards : Nat)
    (hprev : block_hash = c.head.prev_block_hash)
    (hhprev : header.hash = c.header_head.prev_block_hash)
    (hepoch : epoch_exists = true) (hchunks : num_chunks = num_shards) :
    check_known c block_hash = Except.error BlockKnownError.KnownInHead ∧
    check_header_known c header = Except.error BlockKnownError.KnownInHeader ∧
    process_block_known_checks c epoch_exists num_chunks num_shards block_hash
      = Except.error (ProcessBlockError.BlockKnown BlockKnownError.KnownInHead) := by
  have hck : check_known c block_hash = Except.error BlockKnownError.KnownInHead := by
    unfold check_known
    rw [if_pos (Or.inr hprev)]
  refine ⟨hck, ?_, ?_⟩
  · unfold check_header_known
    rw [if_pos (Or.inr hhprev)]
  · unfold process_block_known_checks
    rw [hepoch, hchunks]
    simp [hck]

/-- Witness for `check_known_prev_of_head` at a concrete chain state. -/
theorem check_known_prev_of_head_witness :
    check_known
      { head := ⟨50, 49, 10⟩, header_head := ⟨52, 51, 12⟩,
        orphans_contains := fun _ => false,
        missing_chunks_contains := fun _ => false,
        block_exists := fun _ => true } 49
      = Except.error BlockKnownError.KnownInHead ∧
    check_header_known
      { head := ⟨50, 49, 10⟩, header_head := ⟨52, 51, 12⟩,
        orphans_contains := fun _ => false,
        missing_chunks_contains := fun _ => false,
        block_exists := fun _ => true } ⟨51, 40, 11, 30⟩
      = Except.error BlockKnownError.KnownInHeader ∧
    process_block_known_checks
      { head := ⟨50, 49, 10⟩, header_head := ⟨52, 51, 12⟩,
        orphans_contains := fun _ => false,
        missing_chunks_contains := fun _ => false,
        block_exists := fun _ => true } true 4 4 49
      = Except.error (ProcessBlockError.BlockKnown BlockKnownError.KnownInHead) :=
  check_known_prev_of_head
    { head := ⟨50, 49, 10⟩, header_head := ⟨52, 51, 12⟩,
      orphans_contains := fun _ => false,
      missing_chunks_contains := fun _ => false,
      block_exists := fun _ => true } 49 ⟨51, 40, 11, 30⟩ true 4 4
    rfl rfl rfl rfl

/-! ## `clear_data`: canonical chain clearing (claim C8)

The canonical-clearing loop (`chain.rs` lines 836-872) walks heights
`tail+1 .. gc_stop_height` (exclusive).  `clear_block_data` belongs to the
chain store, which is outside `src/`, so it is passed in as an opaque store
transformer; the loop structure itself — the per-height refcount three-way
decision — is the subject of the claim.  A missing header or refcount is a
propagated storage error; `get_all_block_hashes_by_height` yielding `Err`
or no block is modelled by an empty list for that height. -/

/-- Errors of the canonical-clearing loop. -/
inductive GCError
  | canonicalBlockRefcountZero
  | storage
deriving DecidableEq

/-- The store state the canonical-clearing loop reads and writes. -/
structure GCStore where
  blocks_by_height : Nat → List Nat
  header_prev : Nat → Option Nat
  refcount : Nat → Option Nat
  tail : Nat

/-- `chain_store_update.update_tail(height)`. -/
def setTail (store : GCStore) (height : Nat) : GCStore :=
  { store with tail := height }

/-- The `for height in tail + 1..gc_stop_height` loop of `clear_data`,
with the number of remaining heights as structural fuel and
`clear_block_data` (Canonical mode) passed as `cbd`. -/
def canonicalClearingLoop (cbd : GCStore → Nat → GCStore) :
    Nat → Nat → Nat → GCStore → Except GCError GCStore
  | 0, _, _, store => Except.ok store
  | fuel + 1, height, gc_blocks_remaining, store =>
    if gc_blocks_remaining = 0 then Except.ok store
    else
      match (store.blocks_by_height height).head? with
      | some block_hash =>
        match store.header_prev block_hash with
        | none => Except.error GCError.storage
        | some prev_hash =>
          match store.refcount prev_hash with
          | none => Except.error GCError.storage
          | some prev_block_refcount =>
            if prev_block_refcount > 1 then Except.ok store
            else if prev_block_refcount = 1 then
              canonicalClearingLoop cbd fuel (height + 1) (gc_blocks_remaining - 1)
                (setTail (cbd store block_hash) height)
            else Except.error GCError.canonicalBlockRefcountZero
      | none =>
        canonicalClearingLoop cbd fuel (height + 1) gc_blocks_remaining
          (setTail store height)

/-- The canonical-clearing pass of `Chain::clear_data`. -/
def clear_data_canonical (cbd : GCStore → Nat → GCStore) (store : GCStore)
    (gc_stop_height gc_blocks_limit : Nat) : Except GCError GCStore :=
  canonicalClearingLoop cbd (gc_stop_height - (store.tail + 1)) (store.tail + 1)
    gc_blocks_limit store

/-- **C8.** At a height with a canonical block `b` present whose prev block
has refcount `r` (and gc budget left): if `r > 1` the loop stops without an
error; if `r = 1` the block data at that height is cleared in Canonical
mode, one unit of the gc budget is consumed and the tail advances to that
height before continuing; and if `r = 0` the loop returns the `GCError`
stating that a block on the canonical chain must not have refcount 0. -/
theorem canonical_clearing_cases (cbd : GCStore → Nat → GCStore)
    (fuel height gc_blocks_remaining : Nat) (store : GCStore)
    (b prev_hash r : Nat)
    (hrem : 0 < gc_blocks_remaining)
    (hb : (store.blocks_by_height height).head? = some b)
    (hprev : store.header_prev b = some prev_hash)
    (hr : store.refcount prev_hash = some r) :
    (r > 1 → canonicalClearingLoop cbd (fuel + 1) height gc_blocks_remaining store
        = Except.ok store) ∧
    (r = 1 → canonicalClearingLoop cbd (fuel + 1) height gc_blocks_remaining store
        = canonicalClearingLoop cbd fuel (height + 1) (gc_blocks_remaining - 1)
            (setTail (cbd store b) height)) ∧
    (r = 0 → canonicalClearingLoop cbd (fuel + 1) height gc_blocks_remaining store
        = Except.error GCError.canonicalBlockRefcountZero) := by
  have hrem' : ¬ gc_blocks_remaining = 0 := by omega
  refine ⟨?_, ?_, ?_⟩
  · intro hgt
    simp only [canonicalClearingLoop, hrem', if_false, hb, hprev, hr]
    rw [if_pos hgt]
  · intro h1
    have hngt : ¬ r > 1 := by omega
    simp only [canonicalClearingLoop, hrem', if_false, hb, hprev, hr]
    rw [if_neg hngt, if_pos h1]
  · intro h0
    have hngt : ¬ r > 1 := by omega
    have hne1 : ¬ r = 1 := by omega
    simp only [canonicalClearingLoop, hrem', if_false, hb, hprev, hr]
    rw [if_neg hngt, if_neg hne1]

/-- Witness for `canonical_clearing_cases` at a concrete store: one
canonical block `77` at height `5` whose prev `76` has refcount 1. -/
theorem canonical_clearing_cases_witness :
    (1 > 1 → canonicalClearingLoop (fun s _ => s) (2 + 1) 5 3
        { blocks_by_height := fun h => if h = 5 then [77] else [],
          header_prev := fun b => if b = 77 then some 76 else none,
          refcount := fun p => if p = 76 then some 1 else none, tail := 4 }
        = Except.ok
        { blocks_by_height := fun h => if h = 5 then [77] else [],
          header_prev := fun b => if b = 77 then some 76 else none,
          refcount := fun p => if p = 76 then some 1 else none, tail := 4 }) ∧
    (1 = 1 → canonicalClearingLoop (fun s _ => s) (2 + 1) 5 3
        { blocks_by_height := fun h => if h = 5 then [77] else [],
          header_prev := fun b => if b = 77 then some 76 else none,
          refcount := fun p => if p = 76 then some 1 else none, tail := 4 }
        = canonicalClearingLoop (fun s _ => s) 2 (5 + 1) (3 - 1)
            (setTail ((fun s _ => s)
              { blocks_by_height := fun h => if h = 5 then [77] else [],
                header_prev := fun b => if b = 77 then some 76 else none,
                refcount := fun p => if p = 76 then some 1 else none, tail := 4 } 77) 5)) ∧
    (1 = 0 → canonicalClearingLoop (fun s _ => s) (2 + 1) 5 3
        { blocks_by_height := fun h => if h = 5 then [77] else [],
          header_prev := fun b => if b = 77 then some 76 else none,
          refcount := fun p => if p = 76 then some 1 else none, tail := 4 }
        = Except.error GCError.canonicalBlockRefcountZero) :=
  canonical_clearing_cases (fun s _ => s) 2 5 3
    { blocks_by_height := fun h => if h = 5 then [77] else [],
      header_prev := fun b => if b = 77 then some 76 else none,
      refcount := fun p => if p = 76 then some 1 else none, tail := 4 }
    77 76 1 (by decide) (by simp) (by simp) (by simp)

/-! ## `set_state_header` (claim C7)

`Chain::set_state_header` (`chain.rs` lines 1955-2127) runs a sequence of
checks, each with an early error return, and only commits the header to the
state-headers column after all of them pass.  Cryptographic primitives
(`validate_chunk_proofs`, `verify_path`, the hashing of `ChunkHashHeight`
and `ReceiptList`, `validate_state_root_node`) and the chain-walking helper
`get_header_on_chain_by_height` live outside `src/` and are modelled as
oracle functions in `StateSyncEnv`; the check sequencing and the
receipt-chain loop are embedded structurally. -/

/-- `ShardProof { from_shard_id, to_shard_id, proof }`. -/
structure ShardProof where
  from_shard_id : Nat
  to_shard_id : Nat
  proof : Nat
deriving DecidableEq

/-- `ReceiptProof(receipts, shard_proof)`. -/
structure ReceiptProof where
  receipts : Nat
  shard_proof : ShardProof
deriving DecidableEq

/-- `RootProof(root, block_proof)`. -/
structure RootProof where
  root : Nat
  block_proof : Nat
deriving DecidableEq

/-- `ReceiptProofResponse(block_hash, receipt_proofs)`. -/
structure ReceiptProofResponse where
  block_hash : Nat
  receipt_proofs : List ReceiptProof
deriving DecidableEq

/-- The chunk fields `set_state_header` reads. -/
structure ShardChunkM where
  chunk_hash : Nat
  height_included : Nat
  prev_state_root : Nat
deriving DecidableEq

/-- The block-header fields `set_state_header` reads. -/
structure BlockHeaderInfo where
  prev_hash : Nat
  height : Nat
  chunks_included : Nat
  chunk_headers_root : Nat
  chunk_receipts_root : Nat
deriving DecidableEq

/-- `ShardStateSyncResponseHeader`. -/
structure ShardStateSyncResponseHeader where
  chunk : ShardChunkM
  chunk_proof : Nat
  prev_chunk_header : Option ShardChunkM
  prev_chunk_proof : Option Nat
  incoming_receipts_proofs : List ReceiptProofResponse
  root_proofs : List (List RootProof)
  state_root_node : Nat
deriving DecidableEq

/-- Oracles for the store and the cryptographic checks.  Modelled from the
spec: header lookups, `get_header_on_chain_by_height`, chunk-proof
validation, merkle `verify_path`, the hash of `ChunkHashHeight` /
`ReceiptList`, and state-root-node validation are outside `src/`. -/
structure StateSyncEnv where
  headers : Nat → Option BlockHeaderInfo
  header_on_chain : Nat → Nat → Option BlockHeaderInfo
  validate_chunk_proofs : ShardChunkM → Bool
  vpath : Nat → Nat → Nat → Bool
  chunk_hash_height : Nat → Nat → Nat
  receipts_hash : Nat → Nat → Nat
  validate_state_root_node : Nat → Nat → Bool

/-- The inner `for (j, receipt_proof)` loop (`chain.rs` lines 2065-2095):
from-shard-id uniqueness against the visited set, then checks 4e and 4f. -/
def receiptProofsInner (env : StateSyncEnv) (shard_id : Nat)
    (chunk_receipts_root : Nat) :
    List Nat → List (ReceiptProof × RootProof) → Except String Unit
  | _, [] => Except.ok ()
  | visited, (rcp, rtp) :: rest =>
    if rcp.shard_proof.from_shard_id ∈ visited then
      Except.error "set_shard_state failed: invalid proofs"
    else
      let rhash := env.receipts_hash shard_id rcp.receipts
      if ¬ env.vpath rtp.root rcp.shard_proof.proof rhash then
        Except.error "set_shard_state failed: invalid proofs"
      else if ¬ env.vpath chunk_receipts_root rtp.block_proof rtp.root then
        Except.error "set_shard_state failed: invalid proofs"
      else
        receiptProofsInner env shard_id chunk_receipts_root
          (rcp.shard_proof.from_shard_id :: visited) rest

/-- The outer `for (i, receipt_response)` loop (`chain.rs` lines 2032-2096):
walk `hash_to_compare` back through prev hashes, check the response block
hash (4b), the proof counts (4c), then run the inner loop.  Returns the
final `hash_to_compare`. -/
def receiptProofsLoop (env : StateSyncEnv) (shard_id : Nat) :
    Nat → List ReceiptProofResponse → List (List RootProof) → Except String Nat
  | hash_to_compare, [], _ => Except.ok hash_to_compare
  | hash_to_compare, r :: rest, rps =>
    if ¬ r.block_hash = hash_to_compare then
      Except.error "set_shard_state failed: invalid incoming receipts"
    else
      match env.headers hash_to_compare with
      | none => Except.error "DBNotFoundErr"
      | some header =>
        match env.headers r.block_hash with
        | none => Except.error "DBNotFoundErr"
        | some block_header =>
          match rps with
          | [] => Except.error "root_proofs index out of range"
          | rp :: rpt =>
            if ¬ (r.receipt_proofs.length = rp.length ∧
                r.receipt_proofs.length = block_header.chunks_included) then
              Except.error "set_shard_state failed: invalid proofs"
            else
              match receiptProofsInner env shard_id
                  block_header.chunk_receipts_root []
                  (r.receipt_proofs.zip rp) with
              | Except.error e => Except.error e
              | Except.ok _ =>
                  receiptProofsLoop env shard_id header.prev_hash rest rpt

/-- Step 3b of `set_state_header` (`chain.rs` lines 1997-2022). -/
def checkPrevChunk (env : StateSyncEnv) (sh : ShardStateSyncResponseHeader)
    (block_header : BlockHeaderInfo) : Except String Unit :=
  match sh.prev_chunk_header, sh.prev_chunk_proof with
  | some prev_chunk_header, some prev_chunk_proof =>
    match env.headers block_header.prev_hash with
    | none => Except.error "DBNotFoundErr"
    | some prev_block_header =>
      if ¬ env.vpath prev_block_header.chunk_headers_root prev_chunk_proof
          (env.chunk_hash_height prev_chunk_header.chunk_hash
            prev_chunk_header.height_included) then
        Except.error "set_shard_state failed: prev_chunk is not included into block"
      else Except.ok ()
  | none, none =>
    if ¬ sh.chunk.height_included = 0 then
      Except.error "set_shard_state failed: empty state response for a chunk not at height 0"
    else Except.ok ()
  | _, _ =>
    Except.error "set_shard_state failed: prev_chunk_header and prev_chunk_proof must either both be present or both absent"

/-- `Chain::set_state_header`.  On success the returned triple is the single
store write (`ColStateHeaders` at key `(shard_id, sync_hash)`); every error
path returns before the write, so an error persists nothing. -/
def set_state_header (env : StateSyncEnv) (shard_id sync_hash : Nat)
    (sh : ShardStateSyncResponseHeader) :
    Except String (Nat × Nat × ShardStateSyncResponseHeader) :=
  match env.headers sync_hash with
  | none => Except.error "DBNotFoundErr"
  | some sync_block_header =>
    if ¬ env.validate_chunk_proofs sh.chunk then
      Except.error "set_shard_state failed: chunk header proofs are invalid"
    else
      match env.headers sync_block_header.prev_hash with
      | none => Except.error "DBNotFoundErr"
      | some sync_prev_block_header =>
        if ¬ env.vpath sync_prev_block_header.chunk_headers_root sh.chunk_proof
            (env.chunk_hash_height sh.chunk.chunk_hash sh.chunk.height_included) then
          Except.error "set_shard_state failed: chunk is not included into block"
        else
          match env.header_on_chain sync_hash sh.chunk.height_included with
          | none => Except.error "DBNotFoundErr"
          | some block_header =>
            match checkPrevChunk env sh block_header with
            | Except.error e => Except.error e
            | Except.ok _ =>
              if ¬ sh.root_proofs.length = sh.incoming_receipts_proofs.length then
                Except.error "set_shard_state failed: invalid proofs"
              else
                match receiptProofsLoop env shard_id sync_hash
                    sh.incoming_receipts_proofs sh.root_proofs with
                | Except.error e => Except.error e
                | Except.ok final_hash =>
                  match env.headers final_hash with
                  | none => Except.error "DBNotFoundErr"
                  | some final_header =>
                    if ¬ final_header.height =
                        (match sh.prev_chunk_header with
                         | some h => h.height_included
                         | none => 0) then
                      Except.error "set_shard_state failed: invalid incoming receipts"
                    else if ¬ env.validate_state_root_node sh.state_root_node
                        sh.chunk.prev_state_root then
                      Except.error "set_shard_state failed: state_root_node is invalid"
                    else Except.ok (shard_id, sync_hash, sh)

/-- The claim's validity of the incoming-receipt chain: walking prev-hash
links back from the expected hash, each response carries the expected block
hash, its number of receipt proofs equals both the corresponding
`root_proofs` entry length and the block's `chunks_included`, and the
`from_shard_id`s within one response are pairwise distinct. -/
def ReceiptChainOk (env : StateSyncEnv) :
    Nat → List ReceiptProofResponse → List (List RootProof) → Prop
  | _, [], _ => True
  | expected, r :: rest, rps =>
    r.block_hash = expected ∧
    ∃ hdr, env.headers expected = some hdr ∧
      ∃ rp rpt, rps = rp :: rpt ∧
        r.receipt_proofs.length = rp.length ∧
        r.receipt_proofs.length = hdr.chunks_included ∧
        (r.receipt_proofs.map (fun q => q.shard_proof.from_shard_id)).Nodup ∧
        ReceiptChainOk env hdr.prev_hash rest rpt

theorem receiptProofsInner_ok_nodup (env : StateSyncEnv) (shard_id root : Nat) :
    ∀ (pairs : List (ReceiptProof × RootProof)) (visited : List Nat),
      receiptProofsInner env shard_id root visited pairs = Except.ok () →
      (pairs.map (fun q => q.1.shard_proof.from_shard_id)).Nodup ∧
      ∀ f, f ∈ pairs.map (fun q => q.1.shard_proof.from_shard_id) → ¬ f ∈ visited := by
  intro pairs
  induction pairs with
  | nil => intro visited _; exact ⟨List.nodup_nil, by simp⟩
  | cons pair rest ih =>
    intro visited hok
    obtain ⟨rcp, rtp⟩ := pair
    simp only [receiptProofsInner] at hok
    by_cases hv : rcp.shard_proof.from_shard_id ∈ visited
    · rw [if_pos hv] at hok; cases hok
    · rw [if_neg hv] at hok
      by_cases h4e : env.vpath rtp.root rcp.shard_proof.proof
          (env.receipts_hash shard_id rcp.receipts)
      · rw [if_neg (by simpa using h4e)] at hok
        by_cases h4f : env.vpath root rtp.block_proof rtp.root
        · rw [if_neg (by simpa using h4f)] at hok
          obtain ⟨hnd, hvis⟩ := ih (rcp.shard_proof.from_shard_id :: visited) hok
          refine ⟨?_, ?_⟩
          · simp only [List.map_cons, List.nodup_cons]
            exact ⟨fun hmem => hvis _ hmem (List.mem_cons_self _ _), hnd⟩
          · intro f hf
            simp only [List.map_cons, List.mem_cons] at hf
            rcases hf with rfl | hf
            · exact hv
            · intro hmem
              exact hvis f hf (List.mem_cons_of_mem _ hmem)
        · rw [if_pos (by simpa using h4f)] at hok; cases hok
      · rw [if_pos (by simpa using h4e)] at hok; cases hok

theorem receiptProofsLoop_ok_chain (env : StateSyncEnv) (shard_id : Nat) :
    ∀ (responses : List ReceiptProofResponse) (hash_to_compare : Nat)
      (rps : List (List RootProof)) (final : Nat),
      receiptProofsLoop env shard_id hash_to_compare responses rps
        = Except.ok final →
      ReceiptChainOk env hash_to_compare responses rps := by
  intro responses
  induction responses with
  | nil => intro htc rps final _; trivial
  | cons r rest ih =>
    intro htc rps final hok
    simp only [receiptProofsLoop] at hok
    by_cases hbh : r.block_hash = htc
    · rw [if_neg (by simpa using hbh)] at hok
      cases h1 : env.headers htc with
      | none => rw [h1] at hok; cases hok
      | some header =>
        rw [h1] at hok
        cases h2 : env.headers r.block_hash with
        | none => rw [h2] at hok; cases hok
        | some block_header =>
          rw [h2] at hok
          dsimp only at hok
          match rps with
          | [] => cases hok
          | rp :: rpt =>
            dsimp only at hok
            by_cases hlen : r.receipt_proofs.length = rp.length ∧
                r.receipt_proofs.length = block_header.chunks_included
            · rw [if_neg (by simpa using hlen)] at hok
              cases hinner : receiptProofsInner env shard_id
                  block_header.chunk_receipts_root [] (r.receipt_proofs.zip rp) with
              | error e => rw [hinner] at hok; cases hok
              | ok u =>
                rw [hinner] at hok
                dsimp only at hok
                have hheader : header = block_header := by
                  rw [hbh] at h2
                  rw [h1] at h2
                  exact Option.some.inj h2
                have hnd : (r.receipt_proofs.map
                    (fun q => q.shard_proof.from_shard_id)).Nodup := by
                  cases u
                  obtain ⟨hnd0, _⟩ := receiptProofsInner_ok_nodup env shard_id
                    block_header.chunk_receipts_root (r.receipt_proofs.zip rp) [] hinner
                  have hfst : (r.receipt_proofs.zip rp).map Prod.fst
                      = r.receipt_proofs :=
                    List.map_fst_zip _ _ (le_of_eq hlen.1)
                  have hmm : (r.receipt_proofs.zip rp).map
                      (fun q => q.1.shard_proof.from_shard_id)
                      = r.receipt_proofs.map (fun q => q.shard_proof.from_shard_id) := by
                    conv_rhs => rw [← hfst]
                    rw [List.map_map]
                    rfl
                  rw [hmm] at hnd0
                  exact hnd0
                refine ⟨hbh, block_header, ?_, rp, rpt, rfl, hlen.1, hlen.2, hnd, ?_⟩
                · rw [← hbh]; exact h2
                · rw [← hheader]
                  exact ih header.prev_hash rpt final hok
            · rw [if_pos (by simpa using hlen)] at hok
              cases hok
    · rw [if_pos (by simpa using hbh)] at hok
      cases hok

/-- **C7.** `set_state_header` persists the header — its sole store write is
the `Ok` payload — only when every verification step passes; in particular a
successful run implies the incoming-receipt chain is valid: `root_proofs`
and `incoming_receipts_proofs` have equal length, every response's block
hash matches the hash obtained by walking prev-hash links back from
`sync_hash`, every response's number of receipt proofs equals both the
corresponding `root_proofs` entry length and that block's `chunks_included`,
and the `from_shard_id`s within each response are pairwise distinct.
Contrapositively, whenever the chain is invalid in any of those ways the
function returns an error and persists nothing. -/
theorem set_state_header_ok_receipt_chain (env : StateSyncEnv)
    (shard_id sync_hash : Nat) (sh : ShardStateSyncResponseHeader)
    (w : Nat × Nat × ShardStateSyncResponseHeader)
    (hok : set_state_header env shard_id sync_hash sh = Except.ok w) :
    sh.root_proofs.length = sh.incoming_receipts_proofs.length ∧
    ReceiptChainOk env sync_hash sh.incoming_receipts_proofs sh.root_proofs ∧
    w = (shard_id, sync_hash, sh) := by
  unfold set_state_header at hok
  cases h1 : env.headers sync_hash with
  | none => rw [h1] at hok; cases hok
  | some sync_block_header =>
    rw [h1] at hok
    dsimp only at hok
    by_cases h2 : env.validate_chunk_proofs sh.chunk
    · rw [if_neg (by simpa using h2)] at hok
      cases h3 : env.headers sync_block_header.prev_hash with
      | none => rw [h3] at hok; cases hok
      | some sync_prev_block_header =>
        rw [h3] at hok
        dsimp only at hok
        by_cases h4 : env.vpath sync_prev_block_header.chunk_headers_root
            sh.chunk_proof
            (env.chunk_hash_height sh.chunk.chunk_hash sh.chunk.height_included)
        · rw [if_neg (by simpa using h4)] at hok
          cases h5 : env.header_on_chain sync_hash sh.chunk.height_included with
          | none => rw [h5] at hok; cases hok
          | some block_header =>
            rw [h5] at hok
            dsimp only at hok
            cases h6 : checkPrevChunk env sh block_header with
            | error e => rw [h6] at hok; cases hok
            | ok u =>
              rw [h6] at hok
              dsimp only at hok
              by_cases h7 : sh.root_proofs.length = sh.incoming_receipts_proofs.length
              · rw [if_neg (by simpa using h7)] at hok
                cases h8 : receiptProofsLoop env shard_id sync_hash
                    sh.incoming_receipts_proofs sh.root_proofs with
                | error e => rw [h8] at hok; cases hok
                | ok final_hash =>
                  rw [h8] at hok
                  dsimp only at hok
                  cases h9 : env.headers final_hash with
                  | none => rw [h9] at hok; cases hok
                  | some final_header =>
                    rw [h9] at hok
                    dsimp only at hok
                    by_cases h10 : final_header.height =
                        (match sh.prev_chunk_header with
                         | some hh => hh.height_included
                         | none => 0)
                    · rw [if_neg (by simpa using h10)] at hok
                      by_cases h11 : env.validate_state_root_node
                          sh.state_root_node sh.chunk.prev_state_root
                      · rw [if_neg (by simpa using h11)] at hok
                        refine ⟨h7, ?_, ?_⟩
                        · exact receiptProofsLoop_ok_chain env shard_id
                            sh.incoming_receipts_proofs sync_hash sh.root_proofs
                            final_hash h8
                        · exact (Except.ok.inj hok).symm
                      · rw [if_pos (by simpa using h11)] at hok; cases hok
                    · rw [if_pos (by simpa using h10)] at hok; cases hok
              · rw [if_pos (by simpa using h7)] at hok; cases hok
        · rw [if_pos (by simpa using h4)] at hok; cases hok
    · rw [if_pos (by simpa using h2)] at hok; cases hok

/-- A concrete environment and header on which `set_state_header` succeeds:
sync hash `100`, one incoming-receipt response at block `100`. -/
def c7Env : StateSyncEnv :=
  { headers := fun h =>
      if h = 100 then some ⟨99, 5, 1, 0, 0⟩
      else if h = 99 then some ⟨98, 0, 0, 0, 0⟩
      else none,
    header_on_chain := fun _ _ => some ⟨99, 0, 1, 0, 0⟩,
    validate_chunk_proofs := fun _ => true,
    vpath := fun _ _ _ => true,
    chunk_hash_height := fun a b => a + b,
    receipts_hash := fun a b => a + b,
    validate_state_root_node := fun _ _ => true }

/-- The header of the C7 witness. -/
def c7Header : ShardStateSyncResponseHeader :=
  { chunk := ⟨7, 0, 3⟩, chunk_proof := 0,
    prev_chunk_header := none, prev_chunk_proof := none,
    incoming_receipts_proofs := [⟨100, [⟨1, ⟨0, 0, 0⟩⟩]⟩],
    root_proofs := [[⟨0, 0⟩]],
    state_root_node := 9 }

/-- Witness for `set_state_header_ok_receipt_chain` at a concrete input. -/
theorem set_state_header_ok_receipt_chain_witness :
    c7Header.root_proofs.length = c7Header.incoming_receipts_proofs.length ∧
    ReceiptChainOk c7Env 100 c7Header.incoming_receipts_proofs c7Header.root_proofs ∧
    ((3 : Nat), (100 : Nat), c7Header) = (3, 100, c7Header) :=
  set_state_header_ok_receipt_chain c7Env 3 100 c7Header (3, 100, c7Header) (by rfl)

/-! ## Block merkle proofs (claim C3)

`Chain::get_block_proof` (`chain.rs` lines 2706-2758) builds an
authentication path for the leaf at ordinal `leaf_index` against the merkle
forest of `tree_size` leaves, resolving internal nodes through
`get_merkle_tree_node` / `reconstruct_merkle_tree_node`
(`chain.rs` lines 2602-2703) and `combine_maybe_hashes`
(`chain.rs` lines 2553-2566).

The embedding abstracts the hash combiner as a parameter
`combine : Nat → Nat → Nat` and the store's ordinal-to-block-hash column as
`lvs : Nat → Nat` (total: the code errors on a missing ordinal below
`tree_size`, and ordinals `≥ tree_size` are handled by the `None` branch
before any lookup).  The `tree_nodes` hash map is a pure memoization cache —
both node functions are deterministic in their arguments — so it is dropped.
The persisted column read in the `cur_tree_size <= tree_size` branch
(`get_block_merkle_tree_from_ordinal(cur_tree_size).get_path().last()`) is
modelled from the spec: it is the root of the largest power-of-two subtree
fully contained under the node, i.e. the complete subtree over the leaves
`[index * 2^level, (index+1) * 2^level)`, which in that branch lies entirely
below `tree_size`. -/

/-- Path direction, as in `MerklePathItem`. -/
inductive Direction
  | Left
  | Right
deriving DecidableEq

/-- `MerklePathItem`. -/
structure MerklePathItem where
  hash : Nat
  direction : Direction
deriving DecidableEq

/-- `Chain::combine_maybe_hashes`: `(Some, Some)` combines, `(Some, None)`
passes the left child through, `(None, Some)` trips a debug assert and
returns `None`, `(None, None)` is `None`. -/
def combine_maybe_hashes (combine : Nat → Nat → Nat) :
    Option Nat → Option Nat → Option Nat
  | some h1, some h2 => some (combine h1 h2)
  | some h1, none => some h1
  | none, some _ => none
  | none, none => none

/-- Modelled from the spec: the persisted subtree root for the complete
subtree of `2^level` leaves starting at leaf `index * 2^level`. -/
def subRoot (combine : Nat → Nat → Nat) (lvs : Nat → Nat) :
    Nat → Nat → Nat
  | index, 0 => lvs index
  | index, level + 1 =>
      combine (subRoot combine lvs (2 * index) level)
        (subRoot combine lvs (2 * index + 1) level)

mutual
/-- `Chain::get_merkle_tree_node`. -/
def get_merkle_tree_node (combine : Nat → Nat → Nat) (lvs : Nat → Nat)
    (tree_size : Nat) (index level counter : Nat) : Option Nat :=
  if level = 0 then
    if index ≥ tree_size then none else some (lvs index)
  else
    let cur_tree_size := (index + 1) * counter
    if cur_tree_size > tree_size then
      if index * counter ≤ tree_size then
        combine_maybe_hashes combine
          (get_merkle_tree_node combine lvs tree_size (index * 2) (level - 1)
            (counter / 2))
          (reconstruct_merkle_tree_node combine lvs tree_size (index * 2 + 1)
            (level - 1) (counter / 2))
      else none
    else some (subRoot combine lvs index level)
termination_by level

/-- `Chain::reconstruct_merkle_tree_node`. -/
def reconstruct_merkle_tree_node (combine : Nat → Nat → Nat) (lvs : Nat → Nat)
    (tree_size : Nat) (index level counter : Nat) : Option Nat :=
  if level = 0 then
    if index ≥ tree_size then none else some (lvs index)
  else
    combine_maybe_hashes combine
      (get_merkle_tree_node combine lvs tree_size (index * 2) (level - 1)
        (counter / 2))
      (reconstruct_merkle_tree_node combine lvs tree_size (index * 2 + 1)
        (level - 1) (counter / 2))
termination_by level
end

/-- The `while iter > 1` loop of `Chain::get_block_proof`. -/
def proofLoop (combine : Nat → Nat → Nat) (lvs : Nat → Nat) (tree_size : Nat)
    (cur_index level counter iter : Nat) : List MerklePathItem :=
  if iter ≤ 1 then []
  else
    let sib := if cur_index % 2 = 0 then cur_index + 1 else cur_index - 1
    let direction := if sib % 2 = 0 then Direction.Left else Direction.Right
    let maybe_hash :=
      if sib % 2 = 1 then
        reconstruct_merkle_tree_node combine lvs tree_size sib level counter
      else get_merkle_tree_node combine lvs tree_size sib level counter
    (match maybe_hash with
     | some hash => [{ hash := hash, direction := direction }]
     | none => []) ++
      proofLoop combine lvs tree_size (sib / 2) (level + 1) (counter * 2)
        ((iter + 1) / 2)
termination_by iter
decreasing_by omega

/-- `Chain::get_block_proof`, for a block whose ordinal `leaf_index` is
strictly below the merkle tree size at the head (the code's early-return
cases for `leaf_index >= tree_size` are outside the claim). -/
def get_block_proof (combine : Nat → Nat → Nat) (lvs : Nat → Nat)
    (tree_size leaf_index : Nat) : List MerklePathItem :=
  proofLoop combine lvs tree_size leaf_index 0 1 tree_size

/-- Modelled from the spec: the root reconstruction that `verify_path`
performs, following the direction bit of each path item. -/
def compute_root_from_path (combine : Nat → Nat → Nat) :
    List MerklePathItem → Nat → Nat
  | [], item => item
  | p :: rest, item =>
    match p.direction with
    | Direction.Left => compute_root_from_path combine rest (combine p.hash item)
    | Direction.Right => compute_root_from_path combine rest (combine item p.hash)

/-- Modelled from the spec: `verify_path(root, path, block_hash)`. -/
def verify_path (combine : Nat → Nat → Nat) (root : Nat)
    (path : List MerklePathItem) (item : Nat) : Bool :=
  compute_root_from_path combine path item = root

/-- Modelled from the spec: the peaks of the merkle forest of `n` leaves
starting at leaf `offset` — the roots of the complete subtrees given by the
binary decomposition of `n`, most significant first (the `path` of the
persisted partial merkle tree at size `n`). -/
def peaksList (combine : Nat → Nat → Nat) (lvs : Nat → Nat)
    (n offset : Nat) : List Nat :=
  if hn : n = 0 then []
  else
    subRoot combine lvs (offset / 2 ^ Nat.log2 n) (Nat.log2 n) ::
      peaksList combine lvs (n - 2 ^ Nat.log2 n) (offset + 2 ^ Nat.log2 n)
termination_by n
decreasing_by
  have h1 : 0 < 2 ^ Nat.log2 n := Nat.pos_pow_of_pos _ (by omega)
  omega

/-- Modelled from the spec: the root of the partial merkle tree — the peaks
combined right-associatively, as `PartialMerkleTree::root` does. -/
def bagPeaks (combine : Nat → Nat → Nat) : List Nat → Option Nat
  | [] => none
  | p :: ps =>
    match bagPeaks combine ps with
    | none => some p
    | some r => some (combine p r)

/-- Modelled from the spec: the block merkle root at a head whose merkle
tree has `n` leaves. -/
def root_at (combine : Nat → Nat → Nat) (lvs : Nat → Nat) (n : Nat) :
    Option Nat :=
  bagPeaks combine (peaksList combine lvs n 0)

/-- Reference value of the merkle node covering leaves
`[index * 2^level, (index+1) * 2^level)`, resolved by the combination rule. -/
def nodeHash (combine : Nat → Nat → Nat) (lvs : Nat → Nat) (tree_size : Nat) :
    Nat → Nat → Option Nat
  | index, 0 => if index < tree_size then some (lvs index) else none
  | index, level + 1 =>
      combine_maybe_hashes combine
        (nodeHash combine lvs tree_size (2 * index) level)
        (nodeHash combine lvs tree_size (2 * index + 1) level)

lemma nodeHash_complete (combine : Nat → Nat → Nat) (lvs : Nat → Nat)
    (n : Nat) : ∀ level index, (index + 1) * 2 ^ level ≤ n →
    nodeHash combine lvs n index level = some (subRoot combine lvs index level) := by
  intro level
  induction level with
  | zero =>
    intro index h
    simp only [pow_zero, mul_one] at h
    simp [nodeHash, subRoot, Nat.lt_of_succ_le h]
  | succ l ih =>
    intro index h
    have hl : (2 * index + 1) * 2 ^ l ≤ n := by
      calc (2 * index + 1) * 2 ^ l ≤ (index + 1) * 2 ^ (l + 1) := by
            rw [pow_succ]; ring_nf; nlinarith [Nat.pos_pow_of_pos l (show 0 < 2 by omega)]
        _ ≤ n := h
    have hr : (2 * index + 1 + 1) * 2 ^ l ≤ n := by
      calc (2 * index + 1 + 1) * 2 ^ l = (index + 1) * 2 ^ (l + 1) := by
            rw [pow_succ]; ring
        _ ≤ n := h
    rw [nodeHash, ih _ hl, ih _ hr]
    rfl

lemma nodeHash_empty (combine : Nat → Nat → Nat) (lvs : Nat → Nat)
    (n : Nat) : ∀ level index, n ≤ index * 2 ^ level →
    nodeHash combine lvs n index level = none := by
  intro level
  induction level with
  | zero =>
    intro index h
    simp only [pow_zero, mul_one] at h
    simp [nodeHash, Nat.not_lt_of_ge h]
  | succ l ih =>
    intro index h
    have hl : n ≤ 2 * index * 2 ^ l := by
      rw [pow_succ] at h; nlinarith
    have hr : n ≤ (2 * index + 1) * 2 ^ l := by
      nlinarith [Nat.pos_pow_of_pos l (show 0 < 2 by omega)]
    rw [nodeHash, ih _ hl, ih _ hr]
    rfl

lemma nodeHash_isSome (combine : Nat → Nat → Nat) (lvs : Nat → Nat)
    (n : Nat) : ∀ level index, index * 2 ^ level < n →
    (nodeHash combine lvs n index level).isSome := by
  intro level
  induction level with
  | zero =>
    intro index h
    simp only [pow_zero, mul_one] at h
    simp [nodeHash, h]
  | succ l ih =>
    intro index h
    have hl : 2 * index * 2 ^ l < n := by
      rw [pow_succ] at h; nlinarith
    have := ih (2 * index) hl
    rw [nodeHash]
    cases hx : nodeHash combine lvs n (2 * index) l with
    | none => rw [hx] at this; simp at this
    | some x =>
      cases nodeHash combine lvs n (2 * index + 1) l <;>
        simp [combine_maybe_hashes]

lemma nodeHash_stable (combine : Nat → Nat → Nat) (lvs : Nat → Nat)
    (n level : Nat) (h : n ≤ 2 ^ level) :
    nodeHash combine lvs n 0 (level + 1) = nodeHash combine lvs n 0 level := by
  have hr : nodeHash combine lvs n 1 level = none := by
    apply nodeHash_empty
    simpa using h
  rw [nodeHash]
  simp only [Nat.mul_zero, Nat.zero_add] at *
  rw [hr]
  cases nodeHash combine lvs n 0 level <;> rfl

lemma merkle_node_eq (combine : Nat → Nat → Nat) (lvs : Nat → Nat) (n : Nat) :
    ∀ level index,
    reconstruct_merkle_tree_node combine lvs n index level (2 ^ level) =
      nodeHash combine lvs n index level ∧
    get_merkle_tree_node combine lvs n index level (2 ^ level) =
      nodeHash combine lvs n index level := by
  intro level
  induction level with
  | zero =>
    intro index
    have hn : nodeHash combine lvs n index 0
        = if index < n then some (lvs index) else none := rfl
    constructor
    · rw [reconstruct_merkle_tree_node, if_pos rfl, hn]
      by_cases h : index < n
      · have h2 : ¬index ≥ n := by omega
        rw [if_neg h2, if_pos h]
      · have h2 : index ≥ n := by omega
        rw [if_pos h2, if_neg h]
    · rw [get_merkle_tree_node, if_pos rfl, hn]
      by_cases h : index < n
      · have h2 : ¬index ≥ n := by omega
        rw [if_neg h2, if_pos h]
      · have h2 : index ≥ n := by omega
        rw [if_pos h2, if_neg h]
  | succ l ih =>
    intro index
    have hc : 2 ^ (l + 1) / 2 = 2 ^ l := by
      rw [pow_succ]; exact Nat.mul_div_cancel _ (by omega)
    have hstep : ∀ j,
        combine_maybe_hashes combine
          (get_merkle_tree_node combine lvs n (j * 2) (l + 1 - 1)
            (2 ^ (l + 1) / 2))
          (reconstruct_merkle_tree_node combine lvs n (j * 2 + 1) (l + 1 - 1)
            (2 ^ (l + 1) / 2)) = nodeHash combine lvs n j (l + 1) := by
      intro j
      rw [hc, Nat.add_sub_cancel, (ih (j * 2)).2, (ih (j * 2 + 1)).1, nodeHash,
        Nat.mul_comm j 2]
    constructor
    · rw [reconstruct_merkle_tree_node]
      rw [if_neg (Nat.succ_ne_zero l)]
      exact hstep index
    · rw [get_merkle_tree_node]
      rw [if_neg (Nat.succ_ne_zero l)]
      dsimp only
      by_cases hgt : (index + 1) * 2 ^ (l + 1) > n
      · rw [if_pos hgt]
        by_cases hle : index * 2 ^ (l + 1) ≤ n
        · rw [if_pos hle]
          exact hstep index
        · rw [if_neg hle]
          rw [nodeHash_empty combine lvs n (l + 1) index (by omega)]
      · rw [if_neg hgt]
        rw [nodeHash_complete combine lvs n (l + 1) index (by omega)]

lemma log2_eq_of (n l : Nat) (h1 : 2 ^ l ≤ n) (h2 : n < 2 ^ (l + 1)) :
    Nat.log2 n = l := by
  rw [Nat.log2_eq_log_two]
  exact Nat.log_eq_of_pow_le_of_lt_pow h1 h2

lemma combine_maybe_none_right (combine : Nat → Nat → Nat) :
    ∀ x, combine_maybe_hashes combine x none = x := by
  intro x; cases x <;> rfl

lemma peaksList_pos (combine : Nat → Nat → Nat) (lvs : Nat → Nat)
    (n offset : Nat) (hn : n ≠ 0) :
    peaksList combine lvs n offset =
      subRoot combine lvs (offset / 2 ^ Nat.log2 n) (Nat.log2 n) ::
        peaksList combine lvs (n - 2 ^ Nat.log2 n) (offset + 2 ^ Nat.log2 n) := by
  rw [peaksList, dif_neg hn]

lemma peaksList_zero (combine : Nat → Nat → Nat) (lvs : Nat → Nat)
    (offset : Nat) : peaksList combine lvs 0 offset = [] := by
  rw [peaksList, dif_pos rfl]

lemma bagPeaks_peaksList_isSome (combine : Nat → Nat → Nat) (lvs : Nat → Nat)
    (n offset : Nat) (hn : 0 < n) :
    ∃ r, bagPeaks combine (peaksList combine lvs n offset) = some r := by
  rw [peaksList_pos combine lvs n offset (by omega), bagPeaks]
  cases bagPeaks combine
      (peaksList combine lvs (n - 2 ^ Nat.log2 n) (offset + 2 ^ Nat.log2 n)) with
  | none => exact ⟨_, rfl⟩
  | some r => exact ⟨_, rfl⟩

lemma nodeHash_eq_bagPeaks (combine : Nat → Nat → Nat) (lvs : Nat → Nat)
    (n : Nat) : ∀ level index, index * 2 ^ level < n →
    n ≤ (index + 1) * 2 ^ level →
    nodeHash combine lvs n index level =
      bagPeaks combine
        (peaksList combine lvs (n - index * 2 ^ level) (index * 2 ^ level)) := by
  intro level
  induction level with
  | zero =>
    intro index h1 h2
    simp only [pow_zero, mul_one] at h1 h2 ⊢
    have hn : n = index + 1 := by omega
    subst hn
    have hcount : index + 1 - index = 1 := by omega
    rw [hcount, peaksList_pos _ _ 1 index (by omega)]
    have hlog : Nat.log2 1 = 0 := log2_eq_of 1 0 (by norm_num) (by norm_num)
    rw [hlog]
    simp only [pow_zero, Nat.div_one, Nat.sub_self]
    rw [peaksList_zero, bagPeaks, bagPeaks]
    have hnh : nodeHash combine lvs (index + 1) index 0
        = if index < index + 1 then some (lvs index) else none := rfl
    rw [hnh, if_pos (by omega)]
    rfl
  | succ l ih =>
    intro index h1 h2
    have hpow : 0 < 2 ^ l := Nat.pos_pow_of_pos _ (by omega)
    have hbase : index * 2 ^ (l + 1) = 2 * index * 2 ^ l := by ring
    have hbase1 : (2 * index + 1) * 2 ^ l = index * 2 ^ (l + 1) + 2 ^ l := by ring
    have hbase2 : (2 * index + 2) * 2 ^ l = index * 2 ^ (l + 1) + 2 ^ (l + 1) := by
      ring
    have hsucc : (index + 1) * 2 ^ (l + 1) = index * 2 ^ (l + 1) + 2 ^ (l + 1) := by
      ring
    have hbase3 : (2 * index + 1 + 1) * 2 ^ l = index * 2 ^ (l + 1) + 2 ^ (l + 1) := by
      ring
    have hpow2 : 2 ^ (l + 1) = 2 * 2 ^ l := by ring
    by_cases hfull : n = index * 2 ^ (l + 1) + 2 ^ (l + 1)
    · -- the frame is exactly full: both sides are the complete subtree root
      rw [nodeHash_complete combine lvs n (l + 1) index (by omega)]
      have hcount : n - index * 2 ^ (l + 1) = 2 ^ (l + 1) := by omega
      rw [hcount, peaksList_pos _ _ _ _ (by positivity)]
      have hlog : Nat.log2 (2 ^ (l + 1)) = l + 1 :=
        log2_eq_of _ _ (le_refl _) (Nat.pow_lt_pow_right (by omega) (by omega))
      rw [hlog]
      have hdiv : index * 2 ^ (l + 1) / 2 ^ (l + 1) = index :=
        Nat.mul_div_cancel _ (by positivity)
      rw [hdiv]
      have hz : 2 ^ (l + 1) - 2 ^ (l + 1) = 0 := by omega
      rw [hz, peaksList_zero, bagPeaks, bagPeaks]
    · have hlt : n < index * 2 ^ (l + 1) + 2 ^ (l + 1) := by
        have := h2
        omega
      by_cases hsmall : n ≤ index * 2 ^ (l + 1) + 2 ^ l
      · -- only the left half of the frame is populated
        have hright : nodeHash combine lvs n (2 * index + 1) l = none := by
          apply nodeHash_empty
          omega
        have hleft := ih (2 * index) (by omega) (by omega)
        rw [nodeHash, hright, combine_maybe_none_right, hleft, hbase]
      · -- both halves populated: left is complete, right recurses
        have hleft : nodeHash combine lvs n (2 * index) l
            = some (subRoot combine lvs (2 * index) l) := by
          apply nodeHash_complete
          omega
        have hright := ih (2 * index + 1) (by omega) (by omega)
        obtain ⟨r, hr⟩ := bagPeaks_peaksList_isSome combine lvs
          (n - (2 * index + 1) * 2 ^ l) ((2 * index + 1) * 2 ^ l) (by omega)
        rw [hr] at hright
        rw [nodeHash, hleft, hright]
        have hcpos : 0 < n - index * 2 ^ (l + 1) := by omega
        rw [peaksList_pos _ _ _ _ (by omega)]
        have hlog : Nat.log2 (n - index * 2 ^ (l + 1)) = l := by
          apply log2_eq_of
          · omega
          · omega
        rw [hlog]
        have hdiv : index * 2 ^ (l + 1) / 2 ^ l = 2 * index := by
          rw [hbase]
          exact Nat.mul_div_cancel _ hpow
        rw [hdiv]
        have hco : n - index * 2 ^ (l + 1) - 2 ^ l = n - (2 * index + 1) * 2 ^ l := by
          omega
        have hoff : index * 2 ^ (l + 1) + 2 ^ l = (2 * index + 1) * 2 ^ l := by
          omega
        rw [hco, hoff, bagPeaks, hr]
        rfl

lemma ceil_div_step (n m : Nat) (hm : 0 < m) :
    ((n + m - 1) / m + 1) / 2 = (n + 2 * m - 1) / (2 * m) := by
  have h1 : (n + m - 1) / m + 1 = (n + m - 1 + m) / m :=
    (Nat.add_div_right _ hm).symm
  have h2 : n + m - 1 + m = n + 2 * m - 1 := by omega
  rw [h1, h2, Nat.div_div_eq_div_mul, Nat.mul_comm m 2]

lemma proofLoop_correct (combine : Nat → Nat → Nat) (lvs : Nat → Nat)
    (n leaf r : Nat) (hleaf : leaf < n)
    (hroot : bagPeaks combine (peaksList combine lvs n 0) = some r) :
    ∀ iter level h,
      iter = (n + 2 ^ level - 1) / 2 ^ level →
      nodeHash combine lvs n (leaf / 2 ^ level) level = some h →
      compute_root_from_path combine
        (proofLoop combine lvs n (leaf / 2 ^ level) level (2 ^ level) iter) h
        = r := by
  intro iter
  induction iter using Nat.strong_induction_on with
  | _ iter ih =>
    intro level h hiter hnode
    have hm : 0 < 2 ^ level := Nat.pos_pow_of_pos _ (by omega)
    by_cases hend : iter ≤ 1
    · -- loop exit: the whole tree fits below this level, h is the root
      rw [proofLoop, if_pos hend]
      have hd2 : (n + 2 ^ level - 1) / 2 ^ level < 2 := by omega
      have hd3 : n + 2 ^ level - 1 < 2 * 2 ^ level :=
        (Nat.div_lt_iff_lt_mul hm).mp hd2
      have hn2 : n ≤ 2 ^ level := by omega
      have hcur : leaf / 2 ^ level = 0 := Nat.div_eq_of_lt (by omega)
      rw [hcur] at hnode
      have hG := nodeHash_eq_bagPeaks combine lvs n level 0
        (by simpa using (show 0 < n by omega))
        (by simpa using hn2)
      simp only [Nat.zero_mul, Nat.sub_zero] at hG
      rw [hnode, hroot] at hG
      have hhr : h = r := by
        injection hG with hG
      rw [hhr]
      rfl
    · -- loop step
      rw [proofLoop, if_neg hend]
      dsimp only
      have hdd : leaf / 2 ^ level / 2 = leaf / 2 ^ (level + 1) := by
        rw [Nat.div_div_eq_div_mul, pow_succ]
      have hB : 2 ^ level * 2 = 2 ^ (level + 1) := (pow_succ 2 level).symm
      have hC : (iter + 1) / 2 = (n + 2 ^ (level + 1) - 1) / 2 ^ (level + 1) := by
        rw [hiter, ceil_div_step n (2 ^ level) hm]
        have h2m : 2 * 2 ^ level = 2 ^ (level + 1) := by ring
        rw [h2m]
      have hlt : (n + 2 ^ (level + 1) - 1) / 2 ^ (level + 1) < iter := by
        rw [← hC]; omega
      have hnodeP : nodeHash combine lvs n (leaf / 2 ^ (level + 1)) (level + 1)
          = combine_maybe_hashes combine
              (nodeHash combine lvs n (2 * (leaf / 2 ^ (level + 1))) level)
              (nodeHash combine lvs n (2 * (leaf / 2 ^ (level + 1)) + 1) level) := by
        rw [nodeHash]
      by_cases hc : leaf / 2 ^ level % 2 = 0
      · -- current node is a left child; sibling on the right
        rw [if_pos hc]
        have hs1 : ¬((leaf / 2 ^ level + 1) % 2 = 0) := by omega
        have hs2 : (leaf / 2 ^ level + 1) % 2 = 1 := by omega
        rw [if_neg hs1, if_pos hs2,
          (merkle_node_eq combine lvs n level (leaf / 2 ^ level + 1)).1]
        have hA : (leaf / 2 ^ level + 1) / 2 = leaf / 2 ^ (level + 1) := by
          rw [← hdd]; omega
        have h2p : 2 * (leaf / 2 ^ (level + 1)) = leaf / 2 ^ level := by
          rw [← hdd]; omega
        cases hsib : nodeHash combine lvs n (leaf / 2 ^ level + 1) level with
        | some s =>
          dsimp only
          rw [List.singleton_append, compute_root_from_path]
          dsimp only
          rw [hA, hB, hC]
          apply ih _ hlt (level + 1)
          · rfl
          · rw [hnodeP, h2p, hnode, hsib]
            rfl
        | none =>
          dsimp only
          rw [List.nil_append, hA, hB, hC]
          apply ih _ hlt (level + 1)
          · rfl
          · rw [hnodeP, h2p, hnode, hsib]
            rfl
      · -- current node is a right child; sibling on the left
        rw [if_neg hc]
        have hcpos : 0 < leaf / 2 ^ level :=
          Nat.pos_of_ne_zero (fun h0 => hc (by rw [h0]))
        have hs1 : (leaf / 2 ^ level - 1) % 2 = 0 := by omega
        have hs2 : ¬((leaf / 2 ^ level - 1) % 2 = 1) := by omega
        rw [if_pos hs1, if_neg hs2,
          (merkle_node_eq combine lvs n level (leaf / 2 ^ level - 1)).2]
        have hA : (leaf / 2 ^ level - 1) / 2 = leaf / 2 ^ (level + 1) := by
          rw [← hdd]; omega
        have h2p : 2 * (leaf / 2 ^ (level + 1)) = leaf / 2 ^ level - 1 := by
          rw [← hdd]; omega
        have h2p1 : 2 * (leaf / 2 ^ (level + 1)) + 1 = leaf / 2 ^ level := by
          omega
        have hsome : (nodeHash combine lvs n (leaf / 2 ^ level - 1) level).isSome := by
          apply nodeHash_isSome
          have hmul : (leaf / 2 ^ level - 1) * 2 ^ level < leaf / 2 ^ level * 2 ^ level :=
            mul_lt_mul_of_pos_right (by omega) hm
          have hle : leaf / 2 ^ level * 2 ^ level ≤ leaf := Nat.div_mul_le_self _ _
          omega
        cases hsib : nodeHash combine lvs n (leaf / 2 ^ level - 1) level with
        | none => rw [hsib] at hsome; simp at hsome
        | some s =>
          dsimp only
          rw [List.singleton_append, compute_root_from_path]
          dsimp only
          rw [hA, hB, hC]
          apply ih _ hlt (level + 1)
          · rfl
          · rw [hnodeP, h2p1, h2p, hnode, hsib]
            rfl

/-- C3: for every block whose merkle-tree ordinal `leaf_index` is strictly
below the merkle tree size at the head, the path returned by
`Chain::get_block_proof` verifies against the block merkle root at the head,
with internal nodes resolved by the `combine_maybe_hashes` combination rule:
the root exists and `verify_path root path block_hash = true`. -/
theorem get_block_proof_verifies (combine : Nat → Nat → Nat) (lvs : Nat → Nat)
    (tree_size leaf_index : Nat) (hleaf : leaf_index < tree_size) :
    ∃ r, root_at combine lvs tree_size = some r ∧
      verify_path combine r (get_block_proof combine lvs tree_size leaf_index)
        (lvs leaf_index) = true := by
  have hpos : 0 < tree_size := by omega
  obtain ⟨r, hr⟩ := bagPeaks_peaksList_isSome combine lvs tree_size 0 hpos
  refine ⟨r, hr, ?_⟩
  have hnode0 : nodeHash combine lvs tree_size (leaf_index / 2 ^ 0) 0
      = some (lvs leaf_index) := by
    simp only [pow_zero, Nat.div_one]
    have hn : nodeHash combine lvs tree_size leaf_index 0
        = if leaf_index < tree_size then some (lvs leaf_index) else none := rfl
    rw [hn, if_pos hleaf]
  have hiter : tree_size = (tree_size + 2 ^ 0 - 1) / 2 ^ 0 := by simp
  have hmain := proofLoop_correct combine lvs tree_size leaf_index r hleaf hr
    tree_size 0 (lvs leaf_index) hiter hnode0
  simp only [pow_zero, Nat.div_one] at hmain
  rw [verify_path, get_block_proof]
  simp [hmain]

theorem get_block_proof_verifies_witness :
    2 < 5 ∧
      ∃ r, root_at (fun a b => 2 * a + 3 * b + 1) (fun i => i + 10) 5 = some r ∧
        verify_path (fun a b => 2 * a + 3 * b + 1) r
          (get_block_proof (fun a b => 2 * a + 3 * b + 1) (fun i => i + 10) 5 2)
          ((fun i => i + 10) 2) = true :=
  ⟨by decide, get_block_proof_verifies (fun a b => 2 * a + 3 * b + 1)
    (fun i => i + 10) 5 2 (by decide)⟩
